import Mathlib

/-!
Verification of the matching-and-annotation core of the `logviewer` repository.

The Rust sources embedded here (shallowly) are:
  * `src/highlight.rs` — the Span Engine (`apply_highlights`, `char_to_byte_pos`),
    the heuristic rule table (`HEURISTIC_RULES`), `highlight_line`, and the
    embedded-structure (JSON) detector (`find_all_json`, `highlight_json`,
    `highlight_json_value`, `find_json_key`, `find_json_string`);
  * `src/app.rs` — the `App` state (`poll_source`, `apply_filter`,
    `rebuild_filtered_indices`, `clear`).

Strings are modelled as `List Char`; byte positions are computed with
`Char.utf8Size`, mirroring the byte-indexed tables and slices of the Rust code.
Recursive loops are embedded as fuel-indexed structural recursions (the fuel
supplied at each call site provably dominates the number of iterations of the
Rust loop, which always advances), so every definition reduces in the kernel.
-/

namespace LogViewer

/-- Embeds `enum HighlightStyle` from `src/highlight.rs` (the category of a span). -/
inductive HighlightStyle where
  | none
  | error
  | warning
  | info
  | debug
  | bracket
  | timestamp
  | customHighlight
  | jsonKey
  | jsonString
  | jsonNumber
  | jsonBool
  | jsonNull
deriving DecidableEq, Repr

/-- Embeds `struct Span` from `src/highlight.rs`. The Rust field `end` is a Lean
keyword and is called `stop` here. `priority: u8` is modelled as `Nat`; the
program only ever uses the constants 10, 50 and 100, so no wraparound occurs. -/
structure Span where
  start : Nat
  stop : Nat
  style : HighlightStyle
  priority : Nat
deriving DecidableEq, Repr

/-- Total number of UTF-8 bytes of a line, i.e. Rust `text.len()` for a `&str`. -/
def byteLen (text : List Char) : Nat := (text.map Char.utf8Size).sum

/-- Embeds `char_to_byte_pos` (src/highlight.rs:197-203): the byte offset of the
`char_pos`-th character, or `text.len()` when the line has fewer characters.
`text.char_indices().nth(n)` yields the byte offset of character `n`, which is
the total byte size of the first `n` characters; `unwrap_or(text.len())` and the
final `.min(text.len())` coincide with the clamping behaviour of `List.take`. -/
def char_to_byte_pos (text : List Char) (char_pos : Nat) : Nat :=
  byteLen (text.take char_pos)

/-- The byte range a span styles, as computed inside `apply_highlights`
(src/highlight.rs:162-163): `start` and `end` converted from character to byte
positions, the end additionally clamped by `.min(text.len())`. -/
def spanByteRange (text : List Char) (s : Span) : Nat × Nat :=
  (char_to_byte_pos text s.start, min (char_to_byte_pos text s.stop) (byteLen text))

/-- The final content of entry `i` of the `style_at` table built by
`apply_highlights` (src/highlight.rs:159-170). The Rust loop initialises every
entry to `(None, 0)` and then, for each span in order and for each byte index
`i` in the span byte range, overwrites entry `i` exactly when
`span.priority >= style_at[i].1`; since distinct byte indices never interact,
the table is embedded as this per-index left fold over the span list. -/
def styleAt (text : List Char) (spans : List Span) (i : Nat) : HighlightStyle × Nat :=
  spans.foldl
    (fun e s =>
      if (spanByteRange text s).1 ≤ i ∧ i < (spanByteRange text s).2 ∧ e.2 ≤ s.priority then
        (s.style, s.priority)
      else e)
    (HighlightStyle.none, 0)

/-- Embeds the Rust byte slice `&text[a..b]` followed by `.to_string()`
(src/highlight.rs:183). Returns `none` exactly when Rust would panic: when `a`
or `b` is not a character boundary, when `b < a`, or when `b` exceeds the byte
length of the text. -/
def sliceBytes : List Char → Nat → Nat → Option (List Char)
  | _, 0, 0 => some []
  | [], _, _ => Option.none
  | c :: rest, 0, b =>
    if c.utf8Size ≤ b then (sliceBytes rest 0 (b - c.utf8Size)).map (fun l => c :: l)
    else Option.none
  | c :: rest, a, b =>
    if c.utf8Size ≤ a ∧ c.utf8Size ≤ b then sliceBytes rest (a - c.utf8Size) (b - c.utf8Size)
    else Option.none

/-- Embeds the inner `while` of `apply_highlights` (src/highlight.rs:179-181):
starting from byte index `e`, advance while the index is in range and the table
style equals `cur`; returns the final index. `fuel` bounds the number of steps;
every call site passes fuel at least `byteLen text - e`, which dominates the
Rust loop since the index strictly increases and stops at `byteLen text`. -/
def runEndF (text : List Char) (spans : List Span) (cur : HighlightStyle) :
    Nat → Nat → Nat
  | 0, e => e
  | fuel + 1, e =>
    if e < byteLen text ∧ (styleAt text spans e).1 = cur then
      runEndF text spans cur fuel (e + 1)
    else e

/-- Embeds the outer `while` of `apply_highlights` (src/highlight.rs:175-185):
walk the byte positions of the line, coalescing maximal runs of equal style and
slicing the text for each run. Returns `none` if a slice would panic (which the
theorems below prove never happens) or if the fuel runs out (the fuel supplied
by `apply_highlights` provably suffices). -/
def collectRunsF (text : List Char) (spans : List Span) :
    Nat → Nat → Option (List (List Char × HighlightStyle))
  | 0, _ => Option.none
  | fuel + 1, pos =>
    if pos < byteLen text then
      let cur := (styleAt text spans pos).1
      let e := runEndF text spans cur (byteLen text) (pos + 1)
      match sliceBytes text pos e, collectRunsF text spans fuel e with
      | some s, some rest => some ((s, cur) :: rest)
      | _, _ => Option.none
    else some []

/-- Embeds `apply_highlights` (src/highlight.rs:154-188). An empty span list is
returned as a single run of style `none`; otherwise the byte-indexed style table
is coalesced into runs. The `Option` result records panic freedom: `none` would
mean an out-of-range or non-boundary slice. -/
def apply_highlights (text : List Char) (spans : List Span) :
    Option (List (List Char × HighlightStyle)) :=
  if spans.isEmpty then some [(text, HighlightStyle.none)]
  else collectRunsF text spans (byteLen text + 1) 0

/-- Reference (character-level) version of the style table: the style and
priority the table assigns to every byte of character `i`. Proved below to agree
with `styleAt` on each byte of character `i`. -/
def charStyleAt (spans : List Span) (i : Nat) : HighlightStyle × Nat :=
  spans.foldl
    (fun e s => if s.start ≤ i ∧ i < s.stop ∧ e.2 ≤ s.priority then (s.style, s.priority) else e)
    (HighlightStyle.none, 0)

/-- Reference (character-level) version of `runEndF`. -/
def charRunEndF (spans : List Span) (len : Nat) (cur : HighlightStyle) :
    Nat → Nat → Nat
  | 0, e => e
  | fuel + 1, e =>
    if e < len ∧ (charStyleAt spans e).1 = cur then charRunEndF spans len cur fuel (e + 1)
    else e

/-- Reference (character-level) version of `collectRunsF`: the runs as triples
`(first character index, one-past-last character index, style)`. -/
def charCollectF (spans : List Span) (len : Nat) : Nat → Nat → List (Nat × Nat × HighlightStyle)
  | 0, _ => []
  | fuel + 1, i =>
    if i < len then
      let cur := (charStyleAt spans i).1
      let e := charRunEndF spans len cur len (i + 1)
      (i, e, cur) :: charCollectF spans len fuel e
    else []

/-- The characters a run triple denotes. -/
def seg (text : List Char) (r : Nat × Nat × HighlightStyle) : List Char × HighlightStyle :=
  ((text.take r.2.1).drop r.1, r.2.2)

/-- Embeds `serde_json::Value`. Object maps model the crate-default `BTreeMap`
representation: an association list kept sorted by key, a duplicate key
replacing the earlier value. A number stores the raw literal text it was parsed
from; the program reads numbers back only through `to_string`, which agrees
with the literal for the integer and plain-decimal forms that matter here. -/
inductive JValue where
  | null
  | bool (b : Bool)
  | num (raw : List Char)
  | str (s : List Char)
  | arr (elems : List JValue)
  | obj (entries : List (List Char × JValue))

/-- Byte-lexicographic order on keys (the `Ord` used by `BTreeMap<String, _>`;
on valid UTF-8, byte order of the encodings equals scalar-value order). -/
def keyLt : List Char → List Char → Bool
  | [], [] => false
  | [], _ :: _ => true
  | _ :: _, [] => false
  | a :: as, b :: bs => if a < b then true else if b < a then false else keyLt as bs

/-- The `BTreeMap::insert` of `serde_json`: keep the entry list sorted by key;
an equal key gets its value replaced. -/
def mapInsert : List (List Char × JValue) → List Char → JValue → List (List Char × JValue)
  | [], k, v => [(k, v)]
  | (k0, v0) :: rest, k, v =>
    if keyLt k k0 then (k, v) :: (k0, v0) :: rest
    else if k = k0 then (k, v) :: rest
    else (k0, v0) :: mapInsert rest k v

/-- The whitespace characters `serde_json` skips between tokens. -/
def jsonWs (c : Char) : Bool := c = ' ' || c = '\t' || c = '\n' || c = '\r'

/-- Skipping inter-token whitespace, as the `serde_json` parser does. -/
def skipWs (s : List Char) : List Char := s.dropWhile jsonWs

/-- The whitespace test used to model Rust `str::trim_start` and `str::trim`.
Rust trims every Unicode `White_Space` character; only the ASCII cases are
modelled, which are the only ones the embedded claims exercise. -/
def rustWs (c : Char) : Bool := c = ' ' || c = '\t' || c = '\n' || c = '\r'

/-- ASCII decimal digit test. -/
def isDigit (c : Char) : Bool := '0' ≤ c && c ≤ '9'

/-- Value of one hexadecimal digit. -/
def hexVal (c : Char) : Option Nat :=
  if '0' ≤ c ∧ c ≤ '9' then some (c.toNat - '0'.toNat)
  else if 'a' ≤ c ∧ c ≤ 'f' then some (c.toNat - 'a'.toNat + 10)
  else if 'A' ≤ c ∧ c ≤ 'F' then some (c.toNat - 'A'.toNat + 10)
  else Option.none

/-- Four hexadecimal digits of a `\uXXXX` escape. -/
def parseHex4 : List Char → Option (Nat × List Char)
  | a :: b :: c :: d :: rest =>
    match hexVal a, hexVal b, hexVal c, hexVal d with
    | some x, some y, some z, some w => some (((x * 16 + y) * 16 + z) * 16 + w, rest)
    | _, _, _, _ => Option.none
  | _ => Option.none

/-- The single-character string escapes `serde_json` accepts. -/
def escChar (e : Char) : Option Char :=
  if e = '"' then some '"'
  else if e = '\\' then some '\\'
  else if e = '/' then some '/'
  else if e = 'b' then some (Char.ofNat 8)
  else if e = 'f' then some (Char.ofNat 12)
  else if e = 'n' then some '\n'
  else if e = 'r' then some '\r'
  else if e = 't' then some '\t'
  else Option.none

/-- Models the `serde_json` string scanner, entered just after the opening
quote: returns the unescaped content and the input after the closing quote.
Handles the simple escapes, `\uXXXX`, and UTF-16 surrogate pairs; rejects raw
control characters and lone surrogates, as the crate does. The fuel dominates
the character count, which bounds the iterations. -/
def parseStringBodyF : Nat → List Char → Option (List Char × List Char)
  | 0, _ => Option.none
  | _ + 1, [] => Option.none
  | fuel + 1, c :: rest =>
    if c = '"' then some ([], rest)
    else if c = '\\' then
      match rest with
      | [] => Option.none
      | e :: rest2 =>
        if e = 'u' then
          match parseHex4 rest2 with
          | Option.none => Option.none
          | some (n, rest3) =>
            if 0xD800 ≤ n ∧ n ≤ 0xDBFF then
              match rest3 with
              | '\\' :: 'u' :: rest4 =>
                match parseHex4 rest4 with
                | some (m, rest5) =>
                  if 0xDC00 ≤ m ∧ m ≤ 0xDFFF then
                    (parseStringBodyF fuel rest5).map (fun p =>
                      (Char.ofNat (0x10000 + (n - 0xD800) * 0x400 + (m - 0xDC00)) :: p.1, p.2))
                  else Option.none
                | Option.none => Option.none
              | _ => Option.none
            else if 0xDC00 ≤ n ∧ n ≤ 0xDFFF then Option.none
            else (parseStringBodyF fuel rest3).map (fun p => (Char.ofNat n :: p.1, p.2))
        else
          match escChar e with
          | some ec => (parseStringBodyF fuel rest2).map (fun p => (ec :: p.1, p.2))
          | Option.none => Option.none
    else if c.toNat < 0x20 then Option.none
    else (parseStringBodyF fuel rest).map (fun p => (c :: p.1, p.2))

/-- The optional fraction of a `serde_json` number: a dot must be followed by
at least one digit; anything else is an empty fraction part. -/
def numFrac : List Char → Option (List Char × List Char)
  | '.' :: rest2 =>
    if (rest2.takeWhile isDigit).isEmpty then Option.none
    else some ('.' :: rest2.takeWhile isDigit, rest2.dropWhile isDigit)
  | other => some ([], other)

/-- The optional exponent of a `serde_json` number: `e`/`E`, an optional sign,
then at least one digit; a non-exponent continuation is an empty part. -/
def numExp : List Char → Option (List Char × List Char)
  | [] => some ([], [])
  | e :: rest3 =>
    if e = 'e' ∨ e = 'E' then
      match rest3 with
      | '+' :: r =>
        if (r.takeWhile isDigit).isEmpty then Option.none
        else some (e :: '+' :: r.takeWhile isDigit, r.dropWhile isDigit)
      | '-' :: r =>
        if (r.takeWhile isDigit).isEmpty then Option.none
        else some (e :: '-' :: r.takeWhile isDigit, r.dropWhile isDigit)
      | r =>
        if (r.takeWhile isDigit).isEmpty then Option.none
        else some (e :: r.takeWhile isDigit, r.dropWhile isDigit)
    else some ([], e :: rest3)

/-- The unsigned part of a `serde_json` number: an integer part with no
leading zero, then optional fraction and exponent. Returns the raw literal
text and the rest of the input. -/
def parseNumberBody (s1 : List Char) : Option (List Char × List Char) :=
  match s1 with
  | [] => Option.none
  | c :: rest1 =>
    if isDigit c then
      match numFrac (if c = '0' then rest1 else rest1.dropWhile isDigit) with
      | Option.none => Option.none
      | some (fpart, s3) =>
        match numExp s3 with
        | Option.none => Option.none
        | some (epart, s4) =>
          some ((if c = '0' then ['0'] else c :: rest1.takeWhile isDigit) ++ fpart ++ epart, s4)
    else Option.none

/-- Models the `serde_json` number scanner: optional minus then the body. -/
def parseNumber (s : List Char) : Option (List Char × List Char) :=
  match s with
  | '-' :: rest =>
    match parseNumberBody rest with
    | some (lit, r) => some ('-' :: lit, r)
    | Option.none => Option.none
  | _ => parseNumberBody s

/-- One `key : value` entry of an object, entered at (whitespace before) the
key quote; `pv` parses the value. -/
def parseObjEntry (pv : List Char → Option (JValue × List Char)) (s : List Char) :
    Option ((List Char × JValue) × List Char) :=
  match skipWs s with
  | '"' :: rest =>
    match parseStringBodyF (rest.length + 1) rest with
    | some (key, rest2) =>
      match skipWs rest2 with
      | ':' :: rest3 =>
        match pv (skipWs rest3) with
        | some (v, rest4) => some ((key, v), rest4)
        | Option.none => Option.none
      | _ => Option.none
    | Option.none => Option.none
  | _ => Option.none

/-- The object tail loop: after one parsed entry, repeatedly accept `, entry`
until the closing brace. The fuel dominates the remaining input length. -/
def parseObjRestF (pv : List Char → Option (JValue × List Char)) :
    Nat → List Char → List (List Char × JValue) → Option (JValue × List Char)
  | 0, _, _ => Option.none
  | fuel + 1, s, acc =>
    match skipWs s with
    | [] => Option.none
    | c :: rest =>
      if c = '}' then some (JValue.obj acc, rest)
      else if c = ',' then
        match parseObjEntry pv rest with
        | some ((k, v), rest2) => parseObjRestF pv fuel rest2 (mapInsert acc k v)
        | Option.none => Option.none
      else Option.none

/-- The array tail loop: after one parsed element, repeatedly accept
`, element` until the closing bracket. -/
def parseArrayRestF (pv : List Char → Option (JValue × List Char)) :
    Nat → List Char → List JValue → Option (JValue × List Char)
  | 0, _, _ => Option.none
  | fuel + 1, s, acc =>
    match skipWs s with
    | [] => Option.none
    | c :: rest =>
      if c = ']' then some (JValue.arr acc, rest)
      else if c = ',' then
        match pv (skipWs rest) with
        | some (v, rest2) => parseArrayRestF pv fuel rest2 (acc ++ [v])
        | Option.none => Option.none
      else Option.none

/-- Models parsing one `serde_json::Value` from the head of the input (no
leading whitespace): dispatch on the first character into object, array,
string, literal or number. The fuel bounds the nesting depth; every call site
passes fuel exceeding the input length, which dominates the depth since each
nesting level consumes at least one character. -/
def parseValueF : Nat → List Char → Option (JValue × List Char)
  | 0, _ => Option.none
  | _ + 1, [] => Option.none
  | fuel + 1, c :: rest =>
    if c = '{' then
      match skipWs rest with
      | [] => Option.none
      | c2 :: rest2 =>
        if c2 = '}' then some (JValue.obj [], rest2)
        else
          match parseObjEntry (parseValueF fuel) (c2 :: rest2) with
          | some ((k, v), rest3) =>
            parseObjRestF (parseValueF fuel) (rest3.length + 1) rest3 (mapInsert [] k v)
          | Option.none => Option.none
    else if c = '[' then
      match skipWs rest with
      | [] => Option.none
      | c2 :: rest2 =>
        if c2 = ']' then some (JValue.arr [], rest2)
        else
          match parseValueF fuel (c2 :: rest2) with
          | some (v, rest3) =>
            parseArrayRestF (parseValueF fuel) (rest3.length + 1) rest3 [v]
          | Option.none => Option.none
    else if c = '"' then
      (parseStringBodyF (rest.length + 1) rest).map (fun p => (JValue.str p.1, p.2))
    else if c = 't' then
      if rest.take 3 = ['r', 'u', 'e'] then some (JValue.bool true, rest.drop 3)
      else Option.none
    else if c = 'f' then
      if rest.take 4 = ['a', 'l', 's', 'e'] then some (JValue.bool false, rest.drop 4)
      else Option.none
    else if c = 'n' then
      if rest.take 3 = ['u', 'l', 'l'] then some (JValue.null, rest.drop 3)
      else Option.none
    else if c = '-' ∨ isDigit c then
      (parseNumber (c :: rest)).map (fun p => (JValue.num p.1, p.2))
    else Option.none

/-- Embeds the loop of `find_all_json` (src/highlight.rs:219-241), operating on
the remaining suffix of the line plus the absolute byte offset of that suffix.
One streaming parse (`Deserializer::from_slice(..).into_iter().next()` with its
consumed `byte_offset`) is modelled by `skipWs` plus `parseValueF`. On a parse
that consumed more than one byte the scan resumes after the consumed region;
otherwise it advances one byte past the candidate bracket (which is a one-byte
character, so one character). The fuel dominates the iteration count because
every iteration strictly shortens the suffix. -/
def find_all_json_loop : Nat → List Char → Nat → List (Nat × JValue × Nat)
  | 0, _, _ => []
  | fuel + 1, suffix, off =>
    match suffix.findIdx? (fun c => c = '{' || c = '[') with
    | Option.none => []
    | some k =>
      let abs_pos := off + byteLen (suffix.take k)
      let json_str := suffix.drop k
      let s1 := skipWs json_str
      match parseValueF (s1.length + 1) s1 with
      | some (v, rem) =>
        let e := byteLen json_str - byteLen rem
        if 1 < e then (abs_pos, v, e) :: find_all_json_loop fuel rem (abs_pos + e)
        else find_all_json_loop fuel (suffix.drop (k + 1)) (abs_pos + 1)
      | Option.none => find_all_json_loop fuel (suffix.drop (k + 1)) (abs_pos + 1)

/-- Embeds `find_all_json` (src/highlight.rs:219-241): every embedded
structured value as `(absolute byte start, parsed value, consumed bytes)`. -/
def find_all_json (text : List Char) : List (Nat × JValue × Nat) :=
  find_all_json_loop (text.length + 1) text 0

/-- First occurrence of `pat` in a character list, as a character index
(`Option`); models the search underlying Rust `str::find`, whose byte result
is recovered via `byteLen ∘ List.take` (valid-UTF-8 patterns can only match at
character boundaries because UTF-8 is self-synchronising). -/
def findSubIdx : List Char → List Char → Option Nat
  | l, pat =>
    if pat.isPrefixOf l then some 0
    else
      match l with
      | [] => Option.none
      | _ :: rest => (findSubIdx rest pat).map (fun n => n + 1)

/-- Rust `text.find(pat)`: the byte offset of the first occurrence. -/
def strFind (text pat : List Char) : Option Nat :=
  (findSubIdx text pat).map (fun k => byteLen (text.take k))

/-- Rust `format!("\"{}\"", s)`: the quoted literal searched for. -/
def quoteWrap (s : List Char) : List Char := '"' :: (s ++ ['"'])

/-- Embeds `find_json_key` (src/highlight.rs:308-317): find the FIRST
occurrence of the quoted key; return its byte position only if, ignoring
whitespace, a colon follows it — otherwise `none` (no further occurrence is
tried). -/
def find_json_key (text key : List Char) : Option Nat :=
  match findSubIdx text (quoteWrap key) with
  | Option.none => Option.none
  | some k =>
    if ((text.drop (k + (quoteWrap key).length)).dropWhile rustWs).head? = some ':' then
      some (byteLen (text.take k))
    else Option.none

/-- Embeds the loop of `find_json_string` (src/highlight.rs:319-331):
successive occurrences of the quoted value are tried until one is NOT followed
by a colon; `baseBytes` is the byte offset of the current suffix. Rust advances
`search_start` one byte past the occurrence, whose first byte is the one-byte
quote character, hence one character. -/
def find_json_string_loop : Nat → List Char → List Char → Nat → Option Nat
  | 0, _, _, _ => Option.none
  | fuel + 1, t, pattern, baseBytes =>
    match findSubIdx t pattern with
    | Option.none => Option.none
    | some k =>
      if ((t.drop (k + pattern.length)).dropWhile rustWs).head? = some ':' then
        find_json_string_loop fuel (t.drop (k + 1)) pattern (baseBytes + byteLen (t.take k) + 1)
      else some (baseBytes + byteLen (t.take k))

/-- Embeds `find_json_string` (src/highlight.rs:319-331). -/
def find_json_string (text s : List Char) : Option Nat :=
  find_json_string_loop (text.length + 1) text (quoteWrap s) 0

/-- Embeds `highlight_json_value` (src/highlight.rs:243-306): recursively walk
the parsed value, locating each token in the region text and emitting spans at
`base_offset` plus the located byte position. Span lengths use the Rust byte
lengths (`key.len() + 2`, `s.len() + 2`, the literal length). The fuel bounds
the recursion depth; callers pass the region length plus one, which dominates
the depth of any value parsed from that region. -/
def highlight_json_valueF : Nat → List Char → JValue → Nat → List Span
  | 0, _, _, _ => []
  | fuel + 1, text, v, base_offset =>
    match v with
    | JValue.obj entries =>
      entries.flatMap (fun kv =>
        (match find_json_key text kv.1 with
         | some key_pos =>
           [⟨base_offset + key_pos, base_offset + key_pos + byteLen kv.1 + 2,
             HighlightStyle.jsonKey, 50⟩]
         | Option.none => []) ++ highlight_json_valueF fuel text kv.2 base_offset)
    | JValue.arr elems => elems.flatMap (fun el => highlight_json_valueF fuel text el base_offset)
    | JValue.str s =>
      match find_json_string text s with
      | some pos =>
        [⟨base_offset + pos, base_offset + pos + byteLen s + 2, HighlightStyle.jsonString, 50⟩]
      | Option.none => []
    | JValue.num raw =>
      match strFind text raw with
      | some pos =>
        [⟨base_offset + pos, base_offset + pos + byteLen raw, HighlightStyle.jsonNumber, 50⟩]
      | Option.none => []
    | JValue.bool b =>
      match strFind text (if b then ['t', 'r', 'u', 'e'] else ['f', 'a', 'l', 's', 'e']) with
      | some pos =>
        [⟨base_offset + pos,
          base_offset + pos + byteLen (if b then ['t', 'r', 'u', 'e'] else ['f', 'a', 'l', 's', 'e']),
          HighlightStyle.jsonBool, 50⟩]
      | Option.none => []
    | JValue.null =>
      match strFind text (['n', 'u', 'l', 'l']) with
      | some pos => [⟨base_offset + pos, base_offset + pos + 4, HighlightStyle.jsonNull, 50⟩]
      | Option.none => []

/-- The byte slice `&text[a..b]` with a default for the panic case; the panic
case is proved unreachable where this is used. -/
def byteSliceD (text : List Char) (a b : Nat) : List Char := (sliceBytes text a b).getD []

/-- Embeds `highlight_json` (src/highlight.rs:205-217): `None` when no
structured value is found, otherwise the spans of every region. -/
def highlight_json (text : List Char) : Option (List Span) :=
  if (find_all_json text).isEmpty then Option.none
  else
    some ((find_all_json text).flatMap (fun r =>
      highlight_json_valueF ((byteSliceD text r.1 (r.1 + r.2.2)).length + 1)
        (byteSliceD text r.1 (r.1 + r.2.2)) r.2.1 r.1))

/-- All keys of all objects reachable inside a value, with the same fuel
convention as `highlight_json_valueF`. -/
def collectKeysF : Nat → JValue → List (List Char)
  | 0, _ => []
  | fuel + 1, JValue.obj entries => entries.flatMap (fun kv => kv.1 :: collectKeysF fuel kv.2)
  | fuel + 1, JValue.arr elems => elems.flatMap (fun el => collectKeysF fuel el)
  | _ + 1, _ => []

/-- Modelled from the spec (the wording of claim C7): the first occurrence of
the quoted key literal that IS immediately followed, ignoring whitespace, by a
colon. Stated only to compare the claim against the source behaviour; the
source function `find_json_key` inspects just the first occurrence. -/
def find_json_key_claimed_loop : Nat → List Char → List Char → Nat → Option Nat
  | 0, _, _, _ => Option.none
  | fuel + 1, t, pattern, baseBytes =>
    match findSubIdx t pattern with
    | Option.none => Option.none
    | some k =>
      if ((t.drop (k + pattern.length)).dropWhile rustWs).head? = some ':' then
        some (baseBytes + byteLen (t.take k))
      else
        find_json_key_claimed_loop fuel (t.drop (k + 1)) pattern
          (baseBytes + byteLen (t.take k) + 1)

/-- Modelled from the spec: the location `find_json_key` would return under the
claimed first-colon-followed-occurrence reading. -/
def find_json_key_claimed (text key : List Char) : Option Nat :=
  find_json_key_claimed_loop (text.length + 1) text (quoteWrap key) 0

/-- Modelled from the spec: the filter expression language lives in
`src/filter.rs`, which is not among the available sources; the code embedded
here (src/app.rs, src/highlight.rs) only consumes its evaluation interface. A
filter expression is therefore abstracted by its two evaluation functions;
`find_all_matches` returns `(start, end)` ranges per the spec. The Rust method
name `matches` is a Lean keyword, hence `matchesFn`. -/
structure FilterExpr where
  matchesFn : List Char → Bool
  find_all_matches : List Char → List (Nat × Nat)

/-- Embeds `struct HeuristicRule` (src/highlight.rs:62-66). The compiled regex
is abstracted by its `find_iter` behaviour: the `(start, end)` byte ranges of
its successive non-overlapping matches in a line, which is the contract of
`regex::Regex::find_iter`. -/
structure HeuristicRule where
  regex : List Char → List (Nat × Nat)
  style : HighlightStyle

/-- Embeds `HEURISTIC_RULES` (src/highlight.rs:68-99): seven fixed rules in
order — error tokens, warning tokens, info, debug/trace, bracketed token,
full timestamp, bare time — each parametrised by the match behaviour of its
compiled regex. -/
def HEURISTIC_RULES (mError mWarning mInfo mDebug mBracket mTimestamp mTime :
    List Char → List (Nat × Nat)) : List HeuristicRule :=
  [⟨mError, HighlightStyle.error⟩, ⟨mWarning, HighlightStyle.warning⟩,
   ⟨mInfo, HighlightStyle.info⟩, ⟨mDebug, HighlightStyle.debug⟩,
   ⟨mBracket, HighlightStyle.bracket⟩, ⟨mTimestamp, HighlightStyle.timestamp⟩,
   ⟨mTime, HighlightStyle.timestamp⟩]

/-- The comparator of `highlight_line` (src/highlight.rs:148-150): start
ascending, then priority descending; `a` may stay before `b` exactly when the
comparator does not say greater. `Vec::sort_by` is a stable sort, modelled by
the stable `List.mergeSort`. -/
def spanLe (a b : Span) : Bool :=
  ((compare a.start b.start).then (compare b.priority a.priority)) ≠ Ordering.gt

/-- Embeds `highlight_line` (src/highlight.rs:109-152): collect custom-filter
spans (priority 100), then JSON spans, then heuristic spans (priority 10), and
stably sort. The rule table is passed explicitly (its regexes are parameters of
the embedding). -/
def highlight_line (rules : List HeuristicRule) (text : List Char)
    (custom_filter : Option FilterExpr) (heuristic_enabled json_enabled : Bool) :
    List Span :=
  ((match custom_filter with
    | some filter =>
      (filter.find_all_matches text).map (fun m =>
        (⟨m.1, m.2, HighlightStyle.customHighlight, 100⟩ : Span))
    | Option.none => []) ++
      (if json_enabled then (highlight_json text).getD [] else []) ++
      (if heuristic_enabled then
        rules.flatMap (fun rule =>
          (rule.regex text).map (fun m => (⟨m.1, m.2, rule.style, 10⟩ : Span)))
      else [])).mergeSort spanLe

/-- Embeds `enum SourceEvent` of the log source as consumed by
`App::poll_source` (src/app.rs:61-80). -/
inductive SourceEvent where
  | line (content : List Char)
  | error (msg : List Char)

/-- Embeds `enum InputMode` (src/app.rs:32-37). -/
inductive InputMode where
  | normal
  | filterEdit
  | highlightEdit
deriving DecidableEq

/-- Embeds `struct LogLine` (src/app.rs:7-11). -/
structure LogLine where
  timestamp : List Char
  content : List Char

/-- Embeds `struct App` (src/app.rs:13-30) without the channel receiver
`source_rx`; the pending events of the channel are passed to `poll_source` as
an explicit list. -/
structure App where
  lines : List LogLine
  filtered_indices : List Nat
  scroll_offset : Nat
  filter_input : List Char
  filter_expr : Option FilterExpr
  filter_error : Option (List Char)
  highlight_input : List Char
  highlight_expr : Option FilterExpr
  highlight_error : Option (List Char)
  show_time : Bool
  heuristic_highlight : Bool
  wrap_lines : Bool
  input_mode : InputMode
  follow_tail : Bool
  status_message : Option (List Char)

/-- Embeds `App::new` (src/app.rs:40-59). -/
def App.new : App where
  lines := []
  filtered_indices := []
  scroll_offset := 0
  filter_input := []
  filter_expr := Option.none
  filter_error := Option.none
  highlight_input := []
  highlight_expr := Option.none
  highlight_error := Option.none
  show_time := true
  heuristic_highlight := true
  wrap_lines := false
  input_mode := InputMode.normal
  follow_tail := true
  status_message := Option.none

/-- Embeds `App::matches_filter` (src/app.rs:82-87). The Rust code indexes
`self.lines[idx]`; every caller passes `idx < self.lines.len()`, so the
default value of `getD` is never consulted. -/
def App.matches_filter (app : App) (idx : Nat) : Bool :=
  match app.filter_expr with
  | some expr => expr.matchesFn ((app.lines.getD idx ⟨[], []⟩).content)
  | Option.none => true

/-- One iteration of the `App::poll_source` loop (src/app.rs:61-80). The
wall-clock timestamp `Local::now()` is ambient input and passed as `now`. -/
def App.handle_event (app : App) (now : List Char) : SourceEvent → App
  | SourceEvent.line content =>
    let line : LogLine := ⟨now, content⟩
    let idx := app.lines.length
    let appPushed := { app with lines := app.lines ++ [line] }
    if appPushed.matches_filter idx then
      { appPushed with filtered_indices := appPushed.filtered_indices ++ [idx] }
    else appPushed
  | SourceEvent.error e =>
    { app with status_message := some ((("Source error: ").toList) ++ e) }

/-- Embeds `App::poll_source` (src/app.rs:61-80): drain the pending events in
order. -/
def App.poll_source (app : App) (now : List Char) (events : List SourceEvent) : App :=
  events.foldl (fun a ev => a.handle_event now ev) app

/-- Embeds `App::rebuild_filtered_indices` (src/app.rs:125-133). -/
def App.rebuild_filtered_indices (app : App) : App :=
  { app with
    filtered_indices := (List.range app.lines.length).filter (fun i => app.matches_filter i)
    scroll_offset := 0 }

/-- Rust `str::trim` restricted to the modelled whitespace set. -/
def rustTrim (s : List Char) : List Char :=
  ((s.dropWhile rustWs).reverse.dropWhile rustWs).reverse

/-- Embeds `App::apply_filter` (src/app.rs:89-106), parametrised by
`parse_filter` from the unavailable `src/filter.rs`: an empty (after trim)
input clears the filter; a parse success installs the new expression; a parse
error records the message and returns early, skipping the rebuild. -/
def App.apply_filter (parse_filter : List Char → Except (List Char) FilterExpr)
    (app : App) : App :=
  if (rustTrim app.filter_input).isEmpty then
    ({ app with filter_expr := Option.none, filter_error := Option.none
       } : App).rebuild_filtered_indices
  else
    match parse_filter app.filter_input with
    | Except.ok expr =>
      ({ app with filter_expr := some expr, filter_error := Option.none
         } : App).rebuild_filtered_indices
    | Except.error e => { app with filter_error := some e }

/-- Embeds `App::clear` (src/app.rs:135-140). -/
def App.clear (app : App) : App :=
  { app with
    lines := []
    filtered_indices := []
    scroll_offset := 0
    status_message := some (("Cleared").toList) }

/-- The invariant of claim C10: `filtered_indices` is strictly increasing and
every element indexes into `lines`. -/
def AppInv (app : App) : Prop :=
  List.Pairwise (fun a b => a < b) app.filtered_indices ∧
    ∀ i ∈ app.filtered_indices, i < app.lines.length

/-- The payload proved for every recorded region of `find_all_json`: the
consumed length exceeds one byte, the region lies inside the line, and the
recorded triple is exactly a successful streaming parse at a candidate bracket
whose byte position is the recorded start. -/
def RegionSound (text : List Char) (r : Nat × JValue × Nat) : Prop :=
  1 < r.2.2 ∧ r.1 + r.2.2 ≤ byteLen text ∧
    ∃ k rem, byteLen (text.take k) = r.1 ∧
      ((text.drop k).head? = some '{' ∨ (text.drop k).head? = some '[') ∧
      parseValueF ((skipWs (text.drop k)).length + 1) (skipWs (text.drop k)) =
        some (r.2.1, rem) ∧
      r.2.2 = byteLen (text.drop k) - byteLen rem

/-! ### Byte-position arithmetic -/

theorem byteLen_nil : byteLen [] = 0 := rfl

theorem byteLen_cons (c : Char) (l : List Char) :
    byteLen (c :: l) = c.utf8Size + byteLen l := by
  simp [byteLen]

theorem byteLen_append (a b : List Char) : byteLen (a ++ b) = byteLen a + byteLen b := by
  simp [byteLen]

theorem ctbp_zero (text : List Char) : char_to_byte_pos text 0 = 0 := rfl

theorem ctbp_mono (text : List Char) {a b : Nat} (h : a ≤ b) :
    char_to_byte_pos text a ≤ char_to_byte_pos text b := by
  unfold char_to_byte_pos
  rw [show b = a + (b - a) by omega, List.take_add, byteLen_append]
  omega

theorem ctbp_le (text : List Char) (n : Nat) : char_to_byte_pos text n ≤ byteLen text := by
  unfold char_to_byte_pos
  conv_rhs => rw [← List.take_append_drop n text]
  rw [byteLen_append]
  omega

theorem ctbp_of_le {text : List Char} {n : Nat} (h : text.length ≤ n) :
    char_to_byte_pos text n = byteLen text := by
  unfold char_to_byte_pos
  rw [List.take_of_length_le h]

theorem ctbp_length (text : List Char) : char_to_byte_pos text text.length = byteLen text :=
  ctbp_of_le le_rfl

theorem ctbp_succ {text : List Char} {i : Nat} (h : i < text.length) :
    char_to_byte_pos text (i + 1) = char_to_byte_pos text i + (text.get ⟨i, h⟩).utf8Size := by
  unfold char_to_byte_pos
  rw [List.take_succ, List.getElem?_eq_getElem h, byteLen_append]
  simp [byteLen, List.get_eq_getElem]

theorem ctbp_lt_succ {text : List Char} {i : Nat} (h : i < text.length) :
    char_to_byte_pos text i < char_to_byte_pos text (i + 1) := by
  rw [ctbp_succ h]
  have := Char.utf8Size_pos (text.get ⟨i, h⟩)
  omega

theorem ctbp_lt_byteLen {text : List Char} {i : Nat} (h : i < text.length) :
    char_to_byte_pos text i < byteLen text := by
  have h1 := ctbp_lt_succ h
  have h2 := ctbp_le text (i + 1)
  omega

/-- If `b` is a byte of character `i`, then `char_to_byte_pos text j ≤ b` holds
exactly for `j ≤ i`. -/
theorem ctbp_le_iff {text : List Char} {i b : Nat}
    (hbl : char_to_byte_pos text i ≤ b) (hbu : b < char_to_byte_pos text (i + 1)) (j : Nat) :
    char_to_byte_pos text j ≤ b ↔ j ≤ i := by
  constructor
  · intro h
    by_contra hc
    have hij : i + 1 ≤ j := by omega
    have := ctbp_mono text hij
    omega
  · intro h
    have := ctbp_mono text h
    omega

/-- If `b` is a byte of character `i`, then `b < char_to_byte_pos text j` holds
exactly for `i < j`. -/
theorem lt_ctbp_iff {text : List Char} {i b : Nat}
    (hbl : char_to_byte_pos text i ≤ b) (hbu : b < char_to_byte_pos text (i + 1)) (j : Nat) :
    b < char_to_byte_pos text j ↔ i < j := by
  constructor
  · intro h
    by_contra hc
    have hji : j ≤ i := by omega
    have := ctbp_mono text hji
    omega
  · intro h
    have hij : i + 1 ≤ j := h
    have := ctbp_mono text hij
    omega

/-! ### The style table seen per character -/

/-- Every byte of character `i` carries the character-level table entry: the
byte-indexed Rust table, restricted to the bytes of character `i`, behaves as
the character-level table at `i`. -/
theorem styleAt_eq_charStyleAt {text : List Char} {i b : Nat} (spans : List Span)
    (hbl : char_to_byte_pos text i ≤ b)
    (hbu : b < char_to_byte_pos text (i + 1)) :
    styleAt text spans b = charStyleAt spans i := by
  unfold styleAt charStyleAt
  suffices h : ∀ acc : HighlightStyle × Nat,
      spans.foldl
        (fun e s =>
          if (spanByteRange text s).1 ≤ b ∧ b < (spanByteRange text s).2 ∧ e.2 ≤ s.priority then
            (s.style, s.priority)
          else e) acc =
      spans.foldl
        (fun e s =>
          if s.start ≤ i ∧ i < s.stop ∧ e.2 ≤ s.priority then (s.style, s.priority) else e)
        acc by
    exact h _
  induction spans with
  | nil => intro acc; rfl
  | cons s rest ih =>
    intro acc
    simp only [List.foldl_cons]
    have hb : b < byteLen text := by
      have := ctbp_le text (i + 1)
      omega
    have hcond :
        ((spanByteRange text s).1 ≤ b ∧ b < (spanByteRange text s).2 ∧ acc.2 ≤ s.priority) ↔
          (s.start ≤ i ∧ i < s.stop ∧ acc.2 ≤ s.priority) := by
      unfold spanByteRange
      rw [ctbp_le_iff hbl hbu s.start]
      simp only [lt_min_iff]
      rw [lt_ctbp_iff hbl hbu s.stop]
      tauto
    rw [if_congr hcond rfl rfl]
    exact ih _

/-! ### Simulation of the coalescing walk at character level -/

theorem charRunEndF_stop {spans : List Span} {len : Nat} {cur : HighlightStyle} {e : Nat}
    (h : ¬(e < len ∧ (charStyleAt spans e).1 = cur)) (fuel : Nat) :
    charRunEndF spans len cur fuel e = e := by
  cases fuel with
  | zero => rfl
  | succ f => simp only [charRunEndF, if_neg h]

theorem charRunEndF_bounds {spans : List Span} {len : Nat} {cur : HighlightStyle} :
    ∀ fuel e, e ≤ len →
      e ≤ charRunEndF spans len cur fuel e ∧ charRunEndF spans len cur fuel e ≤ len := by
  intro fuel
  induction fuel with
  | zero => intro e he; exact ⟨le_rfl, he⟩
  | succ f ih =>
    intro e he
    by_cases h : e < len ∧ (charStyleAt spans e).1 = cur
    · simp only [charRunEndF, if_pos h]
      have := ih (e + 1) (by omega)
      omega
    · simp only [charRunEndF, if_neg h]
      exact ⟨le_rfl, he⟩

/-- The byte-level inner `while` of `apply_highlights`, started at a byte
strictly inside or just after character `i` whose table style is `cur`, stops
at the byte position of the character index at which the character-level walk
stops. -/
theorem runEnd_sim {text : List Char} {spans : List Span} {cur : HighlightStyle} :
    ∀ fuel b i cfuel, i < text.length →
      char_to_byte_pos text i < b → b ≤ char_to_byte_pos text (i + 1) →
      (charStyleAt spans i).1 = cur →
      byteLen text - b ≤ fuel → text.length - (i + 1) ≤ cfuel →
      runEndF text spans cur fuel b =
        char_to_byte_pos text (charRunEndF spans text.length cur cfuel (i + 1)) := by
  intro fuel
  induction fuel with
  | zero =>
    intro b i cfuel hi hb1 hb2 hcur hfuel hcf
    have hle : char_to_byte_pos text (i + 1) ≤ byteLen text := ctbp_le _ _
    have hlen : ¬ (i + 1 < text.length) := by
      intro hlt
      have := ctbp_lt_byteLen hlt
      omega
    rw [charRunEndF_stop (fun h => absurd h.1 hlen)]
    have heq : char_to_byte_pos text (i + 1) = byteLen text := ctbp_of_le (by omega)
    simp only [runEndF]
    omega
  | succ f ih =>
    intro b i cfuel hi hb1 hb2 hcur hfuel hcf
    rcases lt_or_eq_of_le hb2 with hblt | hbeq
    · have hcondB : b < byteLen text ∧ (styleAt text spans b).1 = cur := by
        refine ⟨?_, ?_⟩
        · have := ctbp_le text (i + 1)
          omega
        · rw [styleAt_eq_charStyleAt spans (le_of_lt hb1) hblt]
          exact hcur
      simp only [runEndF, if_pos hcondB]
      exact ih (b + 1) i cfuel hi (by omega) (by omega) hcur (by omega) hcf
    · by_cases hlen : i + 1 < text.length
      · by_cases hc : (charStyleAt spans (i + 1)).1 = cur
        · have hcondB : b < byteLen text ∧ (styleAt text spans b).1 = cur := by
            refine ⟨?_, ?_⟩
            · rw [hbeq]
              exact ctbp_lt_byteLen hlen
            · rw [styleAt_eq_charStyleAt spans (le_of_eq hbeq.symm)
                (by rw [hbeq]; exact ctbp_lt_succ hlen)]
              exact hc
          simp only [runEndF, if_pos hcondB]
          obtain ⟨cf, rfl⟩ : ∃ cf, cfuel = cf + 1 := ⟨cfuel - 1, by omega⟩
          have hcond : i + 1 < text.length ∧ (charStyleAt spans (i + 1)).1 = cur := ⟨hlen, hc⟩
          have hunfold : charRunEndF spans text.length cur (cf + 1) (i + 1) =
              charRunEndF spans text.length cur cf (i + 1 + 1) := by
            simp only [charRunEndF, if_pos hcond]
          rw [hunfold]
          have hstep := ctbp_lt_succ hlen
          exact ih (b + 1) (i + 1) cf hlen (by omega) (by omega) hc
            (by have := ctbp_lt_byteLen hlen; omega) (by omega)
        · have hcondB : ¬ (b < byteLen text ∧ (styleAt text spans b).1 = cur) := by
            intro hcon
            apply hc
            rw [styleAt_eq_charStyleAt spans (le_of_eq hbeq.symm)
              (by rw [hbeq]; exact ctbp_lt_succ hlen)] at hcon
            exact hcon.2
          simp only [runEndF, if_neg hcondB]
          rw [charRunEndF_stop (fun h => hc h.2)]
          exact hbeq
      · have hb_eq : b = byteLen text := by
          have h1 : char_to_byte_pos text (i + 1) = byteLen text := ctbp_of_le (by omega)
          have h2 : char_to_byte_pos text i < byteLen text := ctbp_lt_byteLen hi
          omega
        have hcondB : ¬ (b < byteLen text ∧ (styleAt text spans b).1 = cur) := by
          intro hcon
          omega
        simp only [runEndF, if_neg hcondB]
        rw [charRunEndF_stop (fun h => absurd h.1 hlen)]
        exact hbeq

/-! ### Byte slices at character boundaries -/

theorem sliceBytes_zero_zero (text : List Char) : sliceBytes text 0 0 = some [] := by
  cases text <;> rfl

theorem sliceBytes_cons_zero_succ (c : Char) (rest : List Char) (m : Nat) :
    sliceBytes (c :: rest) 0 (m + 1) =
      (if c.utf8Size ≤ m + 1 then (sliceBytes rest 0 (m + 1 - c.utf8Size)).map (fun l => c :: l)
       else Option.none) := rfl

theorem sliceBytes_cons_succ (c : Char) (rest : List Char) (a b : Nat) :
    sliceBytes (c :: rest) (a + 1) b =
      (if c.utf8Size ≤ a + 1 ∧ c.utf8Size ≤ b then
        sliceBytes rest (a + 1 - c.utf8Size) (b - c.utf8Size)
       else Option.none) := rfl

/-- Slicing between the byte positions of two character indices never panics
and yields exactly the characters in between. -/
theorem sliceBytes_ctbp (text : List Char) :
    ∀ i j, i ≤ j →
      sliceBytes text (char_to_byte_pos text i) (char_to_byte_pos text j) =
        some ((text.take j).drop i) := by
  induction text with
  | nil =>
    intro i j _
    have h1 : char_to_byte_pos [] i = 0 := by simp [char_to_byte_pos, byteLen]
    have h2 : char_to_byte_pos [] j = 0 := by simp [char_to_byte_pos, byteLen]
    rw [h1, h2, sliceBytes_zero_zero]
    simp
  | cons c rest ih =>
    intro i j hij
    have hsz := Char.utf8Size_pos c
    cases i with
    | zero =>
      cases j with
      | zero =>
        rw [ctbp_zero, sliceBytes_zero_zero]
        simp
      | succ jj =>
        have hb : char_to_byte_pos (c :: rest) (jj + 1) =
            c.utf8Size + char_to_byte_pos rest jj := by
          simp [char_to_byte_pos, List.take_succ_cons, byteLen_cons]
        obtain ⟨m, hm⟩ : ∃ m, char_to_byte_pos (c :: rest) (jj + 1) = m + 1 :=
          ⟨char_to_byte_pos (c :: rest) (jj + 1) - 1, by omega⟩
        rw [ctbp_zero, hm, sliceBytes_cons_zero_succ, if_pos (by omega)]
        have hsub : m + 1 - c.utf8Size = char_to_byte_pos rest jj := by omega
        rw [hsub]
        have hih := ih 0 jj (by omega)
        rw [ctbp_zero rest] at hih
        rw [hih]
        simp [List.take_succ_cons]
    | succ ii =>
      cases j with
      | zero => omega
      | succ jj =>
        have ha : char_to_byte_pos (c :: rest) (ii + 1) =
            c.utf8Size + char_to_byte_pos rest ii := by
          simp [char_to_byte_pos, List.take_succ_cons, byteLen_cons]
        have hb : char_to_byte_pos (c :: rest) (jj + 1) =
            c.utf8Size + char_to_byte_pos rest jj := by
          simp [char_to_byte_pos, List.take_succ_cons, byteLen_cons]
        obtain ⟨m, hm⟩ : ∃ m, char_to_byte_pos (c :: rest) (ii + 1) = m + 1 :=
          ⟨char_to_byte_pos (c :: rest) (ii + 1) - 1, by omega⟩
        rw [hm, sliceBytes_cons_succ, if_pos (by omega)]
        have hsub1 : m + 1 - c.utf8Size = char_to_byte_pos rest ii := by omega
        have hsub2 : char_to_byte_pos (c :: rest) (jj + 1) - c.utf8Size =
            char_to_byte_pos rest jj := by omega
        rw [hsub1, hsub2, ih ii jj (by omega)]
        simp [List.take_succ_cons]

/-! ### Simulation of the full coalescing loop -/

/-- The byte-level coalescing loop of `apply_highlights`, started at the byte
position of character `i`, produces exactly the character-level runs from `i`,
rendered as slices. In particular it never panics. -/
theorem collect_sim {text : List Char} {spans : List Span} :
    ∀ cfuel i fuel, text.length - i ≤ cfuel →
      byteLen text - char_to_byte_pos text i + 1 ≤ fuel →
      collectRunsF text spans fuel (char_to_byte_pos text i) =
        some ((charCollectF spans text.length cfuel i).map (seg text)) := by
  intro cfuel
  induction cfuel with
  | zero =>
    intro i fuel hcf hfuel
    have hi : text.length ≤ i := by omega
    have heq : char_to_byte_pos text i = byteLen text := ctbp_of_le hi
    obtain ⟨f, rfl⟩ : ∃ f, fuel = f + 1 := ⟨fuel - 1, by omega⟩
    rw [heq]
    simp only [collectRunsF, charCollectF, if_neg (lt_irrefl (byteLen text))]
    rfl
  | succ cf ih =>
    intro i fuel hcf hfuel
    by_cases hi : i < text.length
    · obtain ⟨f, rfl⟩ : ∃ f, fuel = f + 1 := ⟨fuel - 1, by omega⟩
      have hpos : char_to_byte_pos text i < byteLen text := ctbp_lt_byteLen hi
      have hcur : (styleAt text spans (char_to_byte_pos text i)).1 =
          (charStyleAt spans i).1 := by
        rw [styleAt_eq_charStyleAt spans le_rfl (ctbp_lt_succ hi)]
      have hre : runEndF text spans (charStyleAt spans i).1 (byteLen text)
            (char_to_byte_pos text i + 1) =
          char_to_byte_pos text
            (charRunEndF spans text.length (charStyleAt spans i).1 text.length (i + 1)) := by
        apply runEnd_sim (byteLen text) (char_to_byte_pos text i + 1) i text.length hi
          (by omega) (ctbp_lt_succ hi) rfl (by omega) (by omega)
      have hjb := @charRunEndF_bounds spans text.length
        (charStyleAt spans i).1 text.length (i + 1) hi
      have hj1 : i + 1 ≤ charRunEndF spans text.length (charStyleAt spans i).1
          text.length (i + 1) := hjb.1
      have hj2 : charRunEndF spans text.length (charStyleAt spans i).1
          text.length (i + 1) ≤ text.length := hjb.2
      have hslice := sliceBytes_ctbp text i
        (charRunEndF spans text.length (charStyleAt spans i).1 text.length (i + 1))
        (by omega)
      have hctbpj : char_to_byte_pos text (i + 1) ≤ char_to_byte_pos text
          (charRunEndF spans text.length (charStyleAt spans i).1 text.length (i + 1)) :=
        ctbp_mono text hj1
      have hrec := ih (charRunEndF spans text.length (charStyleAt spans i).1
          text.length (i + 1)) f (by omega)
        (by have := ctbp_lt_succ hi; omega)
      simp only [collectRunsF, charCollectF, if_pos hpos, if_pos hi, hcur, hre, hslice, hrec]
      rfl
    · have heq : char_to_byte_pos text i = byteLen text := ctbp_of_le (by omega)
      obtain ⟨f, rfl⟩ : ∃ f, fuel = f + 1 := ⟨fuel - 1, by omega⟩
      rw [heq]
      simp only [collectRunsF, charCollectF, if_neg (lt_irrefl (byteLen text)), if_neg hi]
      rfl

/-- With a nonempty span list, `apply_highlights` equals the character-level
run decomposition rendered as slices. -/
theorem apply_highlights_sim (text : List Char) (spans : List Span) (h : spans ≠ []) :
    apply_highlights text spans =
      some ((charCollectF spans text.length text.length 0).map (seg text)) := by
  unfold apply_highlights
  rw [if_neg (by simpa using h)]
  have hc := @collect_sim text spans text.length 0 (byteLen text + 1)
    (by omega) (by rw [ctbp_zero]; omega)
  rw [ctbp_zero] at hc
  exact hc

theorem charCollectF_bounds {spans : List Span} {len : Nat} :
    ∀ cfuel i r, r ∈ charCollectF spans len cfuel i → i ≤ r.1 ∧ r.1 < r.2.1 ∧ r.2.1 ≤ len := by
  intro cfuel
  induction cfuel with
  | zero =>
    intro i r hr
    simp [charCollectF] at hr
  | succ cf ih =>
    intro i r hr
    by_cases hi : i < len
    · simp only [charCollectF, if_pos hi, List.mem_cons] at hr
      have hb := @charRunEndF_bounds spans len
        (charStyleAt spans i).1 len (i + 1) hi
      rcases hr with rfl | hr2
      · refine ⟨le_rfl, ?_, ?_⟩ <;> dsimp only <;> omega
      · have := ih _ r hr2
        exact ⟨by omega, this.2.1, this.2.2⟩
    · simp [charCollectF, if_neg hi] at hr

theorem take_drop_append {α : Type} {l : List α} {i j : Nat} (h1 : i ≤ j)
    (h2 : j ≤ l.length) : (l.take j).drop i ++ l.drop j = l.drop i := by
  conv_rhs => rw [← List.take_append_drop j l]
  rw [List.drop_append_of_le_length]
  rw [List.length_take]
  omega

theorem charCollectF_concat {spans : List Span} {text : List Char} :
    ∀ cfuel i, text.length - i ≤ cfuel →
      (((charCollectF spans text.length cfuel i).map (seg text)).map Prod.fst).flatten =
        text.drop i := by
  intro cfuel
  induction cfuel with
  | zero =>
    intro i h
    have hlen : text.length ≤ i := by omega
    simp [charCollectF, List.drop_eq_nil_of_le hlen]
  | succ cf ih =>
    intro i h
    by_cases hi : i < text.length
    · simp only [charCollectF, if_pos hi, List.map_cons, List.flatten_cons]
      dsimp only [seg]
      have hb := @charRunEndF_bounds spans text.length
        (charStyleAt spans i).1 text.length (i + 1) hi
      rw [ih (charRunEndF spans text.length (charStyleAt spans i).1 text.length (i + 1))
        (by omega)]
      exact take_drop_append (by omega) hb.2
    · have hle : text.length ≤ i := by omega
      simp [charCollectF, if_neg hi, List.drop_eq_nil_of_le hle]

theorem seg_ne_nil {text : List Char} {r : Nat × Nat × HighlightStyle}
    (h1 : r.1 < r.2.1) (h2 : r.2.1 ≤ text.length) : (seg text r).1 ≠ [] := by
  have hlen : ((text.take r.2.1).drop r.1).length = r.2.1 - r.1 := by
    rw [List.length_drop, List.length_take]
    omega
  have : (seg text r).1.length ≠ 0 := by
    simp only [seg]
    omega
  intro hc
  rw [hc] at this
  exact this rfl

/-- Full behaviour of `apply_highlights`: it always succeeds, the run texts
concatenate to the whole line, an empty span list yields the single default
run, and with spans present no run is empty. -/
theorem apply_highlights_spec (text : List Char) (spans : List Span) :
    ∃ runs, apply_highlights text spans = some runs ∧
      (runs.map Prod.fst).flatten = text ∧
      (spans = [] → runs = [(text, HighlightStyle.none)]) ∧
      (spans ≠ [] → ∀ r ∈ runs, r.1 ≠ []) := by
  by_cases h : spans = []
  · subst h
    refine ⟨[(text, HighlightStyle.none)], rfl, by simp, fun _ => rfl, fun hc => absurd rfl hc⟩
  · refine ⟨_, apply_highlights_sim text spans h, ?_, fun hc => absurd hc h, ?_⟩
    · have := @charCollectF_concat spans text text.length 0 (by omega)
      simpa using this
    · intro _ r hr
      rw [List.mem_map] at hr
      obtain ⟨r0, hr0, rfl⟩ := hr
      have hb := charCollectF_bounds _ _ _ hr0
      exact seg_ne_nil hb.2.1 hb.2.2

/-- C1: for every line of text and every collection of input spans,
`apply_highlights` returns runs whose concatenated texts equal the original
line exactly (no characters lost, duplicated, or reordered); no returned run is
empty when spans are present; and an all-default line (no spans) is returned as
exactly one run of category none. -/
theorem C1_span_engine_coverage (text : List Char) (spans : List Span) :
    ∃ runs, apply_highlights text spans = some runs ∧
      (runs.map Prod.fst).flatten = text ∧
      (spans = [] → runs = [(text, HighlightStyle.none)]) ∧
      (spans ≠ [] → ∀ r ∈ runs, r.1 ≠ []) :=
  apply_highlights_spec text spans

theorem C1_span_engine_coverage_witness :
    ∃ runs, apply_highlights (("ab").toList) [⟨0, 1, HighlightStyle.error, 10⟩] = some runs ∧
      (runs.map Prod.fst).flatten = ("ab").toList ∧
      (([(⟨0, 1, HighlightStyle.error, 10⟩ : Span)] : List Span) = [] →
        runs = [(("ab").toList, HighlightStyle.none)]) ∧
      (([(⟨0, 1, HighlightStyle.error, 10⟩ : Span)] : List Span) ≠ [] →
        ∀ r ∈ runs, r.1 ≠ []) :=
  C1_span_engine_coverage (("ab").toList) [⟨0, 1, HighlightStyle.error, 10⟩]

/-- C2: for a 5-character line with spans `[0,5)` priority 10 warning and
`[2,4)` priority 100 custom-filter-highlight, `apply_highlights` returns
exactly the three runs `[0,2)` warning, `[2,4)` custom, `[4,5)` warning; and in
general a table entry is overwritten by a span exactly when the span covers the
byte and its priority is greater than or equal to the entry priority, so a
later-processed equal-priority range wins. -/
theorem C2_priority_resolution :
    (∀ line : List Char, line.length = 5 →
      apply_highlights line
          [⟨0, 5, HighlightStyle.warning, 10⟩, ⟨2, 4, HighlightStyle.customHighlight, 100⟩] =
        some [(line.take 2, HighlightStyle.warning),
          ((line.take 4).drop 2, HighlightStyle.customHighlight),
          (line.drop 4, HighlightStyle.warning)]) ∧
    (∀ (text : List Char) (spans : List Span) (s : Span) (i : Nat),
      styleAt text (spans ++ [s]) i =
        if (spanByteRange text s).1 ≤ i ∧ i < (spanByteRange text s).2 ∧
            (styleAt text spans i).2 ≤ s.priority then (s.style, s.priority)
        else styleAt text spans i) := by
  constructor
  · intro line hlen
    have hne : ([⟨0, 5, HighlightStyle.warning, 10⟩,
        ⟨2, 4, HighlightStyle.customHighlight, 100⟩] : List Span) ≠ [] :=
      List.cons_ne_nil _ _
    rw [apply_highlights_sim line _ hne, hlen]
    have hcc : charCollectF
        [⟨0, 5, HighlightStyle.warning, 10⟩, ⟨2, 4, HighlightStyle.customHighlight, 100⟩]
        5 5 0 =
        [(0, 2, HighlightStyle.warning), (2, 4, HighlightStyle.customHighlight),
          (4, 5, HighlightStyle.warning)] := by decide
    rw [hcc]
    have h5 : line.take 5 = line := by
      rw [← hlen]
      exact List.take_length line
    simp [seg, h5]
  · intro text spans s i
    simp only [styleAt, List.foldl_append, List.foldl_cons, List.foldl_nil]

theorem C2_priority_resolution_witness :
    apply_highlights (("abcde").toList)
        [⟨0, 5, HighlightStyle.warning, 10⟩, ⟨2, 4, HighlightStyle.customHighlight, 100⟩] =
      some [((("abcde").toList).take 2, HighlightStyle.warning),
        (((("abcde").toList).take 4).drop 2, HighlightStyle.customHighlight),
        ((("abcde").toList).drop 4, HighlightStyle.warning)] :=
  C2_priority_resolution.1 (("abcde").toList) (by decide)

/-- C3: for every input text (including multi-byte characters) and every span
list, `apply_highlights` returns normally — it never panics and never produces
an out-of-range slice (the result is always `some`), and character offsets,
including ones past the end of the line, are clamped to the byte length of the
line. -/
theorem C3_no_panic_and_clamp (text : List Char) (spans : List Span) (n : Nat) :
    (apply_highlights text spans).isSome = true ∧
      char_to_byte_pos text n ≤ byteLen text := by
  refine ⟨?_, ctbp_le text n⟩
  obtain ⟨runs, hr, -, -, -⟩ := apply_highlights_spec text spans
  rw [hr]
  rfl

/-! ### Heuristic rules and highlight_line -/

/-- Enabling heuristics adds exactly one span per regex match per rule (up to
the stable reordering of the final sort). -/
theorem highlight_line_heuristic_perm (rules : List HeuristicRule) (text : List Char)
    (cf : Option FilterExpr) (json_enabled : Bool) :
    (highlight_line rules text cf true json_enabled).Perm
      (highlight_line rules text cf false json_enabled ++
        rules.flatMap (fun rule =>
          (rule.regex text).map (fun m => (⟨m.1, m.2, rule.style, 10⟩ : Span)))) := by
  unfold highlight_line
  simp only [Bool.false_eq_true, Bool.true_eq_false, ite_true, ite_false, if_true, if_false,
    List.append_nil]
  refine (List.mergeSort_perm _ spanLe).trans ?_
  exact ((List.mergeSort_perm _ spanLe).append_right _).symm

/-- C9: with heuristic highlighting enabled, `highlight_line` emits (as a
permutation, since the final sort only reorders) the spans it would emit with
heuristics disabled plus exactly one span for every match of every one of the
seven fixed rules; the rule table carries the seven fixed categories in order,
and every heuristic span carries priority exactly 10 and its rule's category. -/
theorem C9_heuristic_spans (mError mWarning mInfo mDebug mBracket mTimestamp mTime :
    List Char → List (Nat × Nat)) (text : List Char) (cf : Option FilterExpr)
    (json_enabled : Bool) :
    (highlight_line (HEURISTIC_RULES mError mWarning mInfo mDebug mBracket mTimestamp mTime)
        text cf true json_enabled).Perm
      (highlight_line (HEURISTIC_RULES mError mWarning mInfo mDebug mBracket mTimestamp mTime)
          text cf false json_enabled ++
        (HEURISTIC_RULES mError mWarning mInfo mDebug mBracket mTimestamp mTime).flatMap
          (fun rule => (rule.regex text).map (fun m => (⟨m.1, m.2, rule.style, 10⟩ : Span)))) ∧
    (HEURISTIC_RULES mError mWarning mInfo mDebug mBracket mTimestamp mTime).map
        HeuristicRule.style =
      [HighlightStyle.error, HighlightStyle.warning, HighlightStyle.info,
        HighlightStyle.debug, HighlightStyle.bracket, HighlightStyle.timestamp,
        HighlightStyle.timestamp] ∧
    (∀ sp ∈ (HEURISTIC_RULES mError mWarning mInfo mDebug mBracket mTimestamp mTime).flatMap
        (fun rule => (rule.regex text).map (fun m => (⟨m.1, m.2, rule.style, 10⟩ : Span))),
      sp.priority = 10 ∧ ∃ rule ∈ HEURISTIC_RULES mError mWarning mInfo mDebug mBracket
        mTimestamp mTime, ∃ m ∈ rule.regex text, sp = ⟨m.1, m.2, rule.style, 10⟩) := by
  refine ⟨highlight_line_heuristic_perm _ _ _ _, rfl, ?_⟩
  intro sp hsp
  rw [List.mem_flatMap] at hsp
  obtain ⟨rule, hrule, hsp⟩ := hsp
  rw [List.mem_map] at hsp
  obtain ⟨m, hm, rfl⟩ := hsp
  exact ⟨rfl, rule, hrule, m, hm, rfl⟩

theorem C9_heuristic_spans_witness :
    (highlight_line (HEURISTIC_RULES (fun _ => [(0, 5)]) (fun _ => []) (fun _ => [])
        (fun _ => []) (fun _ => []) (fun _ => []) (fun _ => []))
        (("error").toList) Option.none true false).Perm
      (highlight_line (HEURISTIC_RULES (fun _ => [(0, 5)]) (fun _ => []) (fun _ => [])
          (fun _ => []) (fun _ => []) (fun _ => []) (fun _ => []))
          (("error").toList) Option.none false false ++
        (HEURISTIC_RULES (fun _ => [(0, 5)]) (fun _ => []) (fun _ => [])
          (fun _ => []) (fun _ => []) (fun _ => []) (fun _ => [])).flatMap
          (fun rule => (rule.regex (("error").toList)).map
            (fun m => (⟨m.1, m.2, rule.style, 10⟩ : Span)))) :=
  (C9_heuristic_spans (fun _ => [(0, 5)]) (fun _ => []) (fun _ => []) (fun _ => [])
    (fun _ => []) (fun _ => []) (fun _ => []) (("error").toList) Option.none false).1

/-! ### App state: filter recovery and the filtered-indices invariant -/

/-- C5: if parsing a non-empty filter query fails, `apply_filter` leaves the
previously active filter expression (or none) in effect, leaves the filtered
line indices unchanged, records the parse error message, and a subsequent
matches call (via `matches_filter`) continues to use the prior expression
unchanged. `parse_filter` lives in the unavailable `src/filter.rs` and is
universally quantified; only its failure on this input is assumed. -/
theorem C5_parse_failure_recovery (parse_filter : List Char → Except (List Char) FilterExpr)
    (app : App) (msg : List Char)
    (hne : (rustTrim app.filter_input).isEmpty = false)
    (hfail : parse_filter app.filter_input = Except.error msg) :
    (App.apply_filter parse_filter app).filter_expr = app.filter_expr ∧
      (App.apply_filter parse_filter app).filtered_indices = app.filtered_indices ∧
      (App.apply_filter parse_filter app).filter_error = some msg ∧
      (App.apply_filter parse_filter app).lines = app.lines ∧
      ∀ i, (App.apply_filter parse_filter app).matches_filter i = app.matches_filter i := by
  have hcond : ¬ ((rustTrim app.filter_input).isEmpty = true) := by
    rw [hne]
    exact Bool.false_ne_true
  unfold App.apply_filter
  rw [if_neg hcond, hfail]
  exact ⟨rfl, rfl, rfl, rfl, fun i => rfl⟩

theorem C5_parse_failure_recovery_witness :
    (App.apply_filter (fun _ => Except.error (("x").toList))
        { App.new with filter_input := ("(error AND").toList }).filter_expr =
      ({ App.new with filter_input := ("(error AND").toList } : App).filter_expr ∧
      (App.apply_filter (fun _ => Except.error (("x").toList))
          { App.new with filter_input := ("(error AND").toList }).filtered_indices =
        ({ App.new with filter_input := ("(error AND").toList } : App).filtered_indices ∧
      (App.apply_filter (fun _ => Except.error (("x").toList))
          { App.new with filter_input := ("(error AND").toList }).filter_error =
        some (("x").toList) ∧
      (App.apply_filter (fun _ => Except.error (("x").toList))
          { App.new with filter_input := ("(error AND").toList }).lines =
        ({ App.new with filter_input := ("(error AND").toList } : App).lines ∧
      ∀ i, (App.apply_filter (fun _ => Except.error (("x").toList))
          { App.new with filter_input := ("(error AND").toList }).matches_filter i =
        ({ App.new with filter_input := ("(error AND").toList } : App).matches_filter i :=
  C5_parse_failure_recovery (fun _ => Except.error (("x").toList))
    { App.new with filter_input := ("(error AND").toList } (("x").toList) (by decide) rfl

theorem appInv_handle_event {app : App} (h : AppInv app) (now : List Char)
    (ev : SourceEvent) : AppInv (app.handle_event now ev) := by
  cases ev with
  | error e => exact h
  | line content =>
    simp only [App.handle_event]
    split
    · constructor
      · rw [List.pairwise_append]
        refine ⟨h.1, List.pairwise_singleton _ _, ?_⟩
        intro a ha b hb
        simp only [List.mem_singleton] at hb
        subst hb
        exact h.2 a ha
      · intro i hi
        simp only [List.length_append, List.length_singleton]
        rcases List.mem_append.mp hi with hi1 | hi2
        · have := h.2 i hi1
          omega
        · simp only [List.mem_singleton] at hi2
          omega
    · refine ⟨h.1, ?_⟩
      intro i hi
      have := h.2 i hi
      simp only [List.length_append, List.length_singleton]
      omega

theorem appInv_poll_source {app : App} (h : AppInv app) (now : List Char)
    (events : List SourceEvent) : AppInv (app.poll_source now events) := by
  induction events generalizing app with
  | nil => exact h
  | cons ev rest ih =>
    have h1 := appInv_handle_event h now ev
    exact ih h1

theorem appInv_rebuild (app : App) : AppInv app.rebuild_filtered_indices := by
  constructor
  · exact (List.pairwise_lt_range _).filter _
  · intro i hi
    simp only [App.rebuild_filtered_indices] at hi ⊢
    have := List.mem_range.mp (List.mem_of_mem_filter hi)
    exact this

theorem appInv_apply_filter (parse_filter : List Char → Except (List Char) FilterExpr)
    (app : App) (h : AppInv app) : AppInv (App.apply_filter parse_filter app) := by
  unfold App.apply_filter
  by_cases hc : (rustTrim app.filter_input).isEmpty = true
  · rw [if_pos hc]
    exact appInv_rebuild _
  · rw [if_neg hc]
    cases hp : parse_filter app.filter_input with
    | ok expr => exact appInv_rebuild _
    | error e => exact h

theorem appInv_clear (app : App) : AppInv app.clear := by
  exact ⟨List.Pairwise.nil, by intro i hi; simp [App.clear] at hi⟩

/-- C10: the invariant that `filtered_indices` is strictly increasing with
every element a valid index into `lines` holds for `App::new` and is preserved
by `poll_source` (which appends the new index only when the line matches), by
`apply_filter` (including its rebuild), and by `clear`. -/
theorem C10_filtered_indices_invariant :
    AppInv App.new ∧
      (∀ (app : App) (now : List Char) (events : List SourceEvent),
        AppInv app → AppInv (app.poll_source now events)) ∧
      (∀ (parse_filter : List Char → Except (List Char) FilterExpr) (app : App),
        AppInv app → AppInv (App.apply_filter parse_filter app)) ∧
      (∀ app : App, AppInv app → AppInv app.clear) := by
  refine ⟨⟨List.Pairwise.nil, by intro i hi; simp [App.new] at hi⟩, ?_, ?_, ?_⟩
  · intro app now events h
    exact appInv_poll_source h now events
  · intro parse_filter app h
    exact appInv_apply_filter parse_filter app h
  · intro app _
    exact appInv_clear app

theorem C10_filtered_indices_invariant_witness :
    AppInv (App.poll_source App.new (("12:00:00").toList)
      [SourceEvent.line (("hello").toList), SourceEvent.error (("oops").toList),
        SourceEvent.line (("world").toList)]) :=
  C10_filtered_indices_invariant.2.1 App.new (("12:00:00").toList)
    [SourceEvent.line (("hello").toList), SourceEvent.error (("oops").toList),
      SourceEvent.line (("world").toList)]
    C10_filtered_indices_invariant.1

/-! ### Parser remainder lemmas: the unconsumed input is a suffix -/

theorem skipWs_suffix (s : List Char) : skipWs s <:+ s := List.dropWhile_suffix _

theorem parseHex4_suffix {s r : List Char} {n : Nat} (h : parseHex4 s = some (n, r)) :
    r <:+ s := by
  obtain _ | ⟨a, _ | ⟨b, _ | ⟨c, _ | ⟨d, rest⟩⟩⟩⟩ := s
  · simp [parseHex4] at h
  · simp [parseHex4] at h
  · simp [parseHex4] at h
  · simp [parseHex4] at h
  · rw [parseHex4] at h
    split at h
    · simp only [Option.some.injEq, Prod.mk.injEq] at h
      obtain ⟨-, rfl⟩ := h
      exact ⟨[a, b, c, d], rfl⟩
    · simp at h

theorem map_parseStringBody_suffix {f : Nat}
    (ih : ∀ {s content r : List Char}, parseStringBodyF f s = some (content, r) → r <:+ s)
    {X s r : List Char} {content : List Char} {c0 : Char} (hX : X <:+ s)
    (h : (parseStringBodyF f X).map (fun p => (c0 :: p.1, p.2)) = some (content, r)) :
    r <:+ s := by
  cases hp : parseStringBodyF f X with
  | none => rw [hp] at h; simp at h
  | some p =>
    rw [hp] at h
    simp at h
    obtain ⟨-, rfl⟩ := h
    exact (ih hp).trans hX

theorem parseStringBodyF_zero (s : List Char) : parseStringBodyF 0 s = Option.none := by
  cases s <;> rfl

theorem parseStringBodyF_succ_cons (f : Nat) (c : Char) (rest : List Char) :
    parseStringBodyF (f + 1) (c :: rest) =
      (if c = '"' then some ([], rest)
       else if c = '\\' then
         match rest with
         | [] => Option.none
         | e :: rest2 =>
           if e = 'u' then
             match parseHex4 rest2 with
             | Option.none => Option.none
             | some (n, rest3) =>
               if 0xD800 ≤ n ∧ n ≤ 0xDBFF then
                 match rest3 with
                 | '\\' :: 'u' :: rest4 =>
                   match parseHex4 rest4 with
                   | some (m, rest5) =>
                     if 0xDC00 ≤ m ∧ m ≤ 0xDFFF then
                       (parseStringBodyF f rest5).map (fun p =>
                         (Char.ofNat (0x10000 + (n - 0xD800) * 0x400 + (m - 0xDC00)) :: p.1,
                           p.2))
                     else Option.none
                   | Option.none => Option.none
                 | _ => Option.none
               else if 0xDC00 ≤ n ∧ n ≤ 0xDFFF then Option.none
               else (parseStringBodyF f rest3).map (fun p => (Char.ofNat n :: p.1, p.2))
           else
             match escChar e with
             | some ec => (parseStringBodyF f rest2).map (fun p => (ec :: p.1, p.2))
             | Option.none => Option.none
       else if c.toNat < 0x20 then Option.none
       else (parseStringBodyF f rest).map (fun p => (c :: p.1, p.2))) := rfl

theorem parseStringBodyF_suffix :
    ∀ (fuel : Nat) {s content r : List Char},
      parseStringBodyF fuel s = some (content, r) → r <:+ s := by
  intro fuel
  induction fuel with
  | zero =>
    intro s content r h
    rw [parseStringBodyF_zero] at h
    exact absurd h (by simp)
  | succ f ih =>
    intro s content r h
    obtain _ | ⟨c, rest⟩ := s
    · exact absurd h (by simp [parseStringBodyF])
    · rw [parseStringBodyF_succ_cons] at h
      by_cases h1 : c = '"'
      · rw [if_pos h1] at h
        simp at h
        obtain ⟨-, rfl⟩ := h
        exact List.suffix_cons c rest
      · rw [if_neg h1] at h
        by_cases h2 : c = '\\'
        · rw [if_pos h2] at h
          split at h
          · simp at h
          · rename_i e rest2
            by_cases h3 : e = 'u'
            · rw [if_pos h3] at h
              split at h
              · simp at h
              · rename_i n rest3 hh
                have hs3 : rest3 <:+ c :: e :: rest2 :=
                  (parseHex4_suffix hh).trans ⟨[c, e], rfl⟩
                by_cases h4 : 0xD800 ≤ n ∧ n ≤ 0xDBFF
                · rw [if_pos h4] at h
                  split at h
                  · rename_i rest4
                    split at h
                    · rename_i m rest5 hh2
                      split at h
                      · exact map_parseStringBody_suffix ih
                          (((parseHex4_suffix hh2).trans ⟨['\\', 'u'], rfl⟩).trans hs3) h
                      · simp at h
                    · simp at h
                  · simp at h
                · rw [if_neg h4] at h
                  split at h
                  · simp at h
                  · exact map_parseStringBody_suffix ih hs3 h
            · rw [if_neg h3] at h
              split at h
              · rename_i ec he
                exact map_parseStringBody_suffix ih ⟨[c, e], rfl⟩ h
              · simp at h
        · rw [if_neg h2] at h
          split at h
          · simp at h
          · exact map_parseStringBody_suffix ih (List.suffix_cons c rest) h

theorem numFrac_suffix {s fpart r : List Char} (h : numFrac s = some (fpart, r)) : r <:+ s := by
  rw [numFrac.eq_def] at h
  split at h
  · split at h
    · simp at h
    · simp at h
      obtain ⟨-, rfl⟩ := h
      exact (List.dropWhile_suffix _).trans (List.suffix_cons _ _)
  · simp at h
    obtain ⟨-, rfl⟩ := h
    exact List.suffix_rfl

theorem numExp_suffix {s epart r : List Char} (h : numExp s = some (epart, r)) : r <:+ s := by
  rw [numExp.eq_def] at h
  split at h
  · simp at h
    obtain ⟨-, rfl⟩ := h
    exact List.suffix_rfl
  · rename_i e rest3
    split at h
    · split at h
      · rename_i r0
        split at h
        · simp at h
        · simp at h
          obtain ⟨-, rfl⟩ := h
          exact ((List.dropWhile_suffix _).trans (List.suffix_cons _ _)).trans
            (List.suffix_cons _ _)
      · rename_i r0
        split at h
        · simp at h
        · simp at h
          obtain ⟨-, rfl⟩ := h
          exact ((List.dropWhile_suffix _).trans (List.suffix_cons _ _)).trans
            (List.suffix_cons _ _)
      · split at h
        · simp at h
        · simp at h
          obtain ⟨-, rfl⟩ := h
          exact (List.dropWhile_suffix _).trans (List.suffix_cons _ _)
    · simp at h
      obtain ⟨-, rfl⟩ := h
      exact List.suffix_rfl

theorem parseNumberBody_suffix {s lit r : List Char} (h : parseNumberBody s = some (lit, r)) :
    r <:+ s := by
  rw [parseNumberBody.eq_def] at h
  split at h
  · simp at h
  · rename_i c rest1
    split at h
    · split at h
      · simp at h
      · rename_i fpart s3 hf
        split at h
        · simp at h
        · rename_i epart s4 he
          simp at h
          obtain ⟨-, rfl⟩ := h
          have h1 : (if c = '0' then rest1 else rest1.dropWhile isDigit) <:+ rest1 := by
            split
            · exact List.suffix_rfl
            · exact List.dropWhile_suffix _
          exact (((numExp_suffix he).trans (numFrac_suffix hf)).trans h1).trans
            (List.suffix_cons _ _)
    · simp at h

theorem parseNumber_suffix {s lit r : List Char} (h : parseNumber s = some (lit, r)) :
    r <:+ s := by
  rw [parseNumber.eq_def] at h
  split at h
  · rename_i rest
    split at h
    · rename_i lit0 r0 hb
      simp at h
      obtain ⟨-, rfl⟩ := h
      exact (parseNumberBody_suffix hb).trans (List.suffix_cons _ _)
    · simp at h
  · exact parseNumberBody_suffix h

theorem parseObjEntry_suffix {pv : List Char → Option (JValue × List Char)}
    (hpv : ∀ {s v r}, pv s = some (v, r) → r <:+ s)
    {s : List Char} {kv : List Char × JValue} {r : List Char}
    (h : parseObjEntry pv s = some (kv, r)) : r <:+ s := by
  rw [parseObjEntry.eq_def] at h
  split at h
  · rename_i rest heq
    have hrest : rest <:+ s := (List.suffix_cons _ _).trans (heq ▸ skipWs_suffix s)
    split at h
    · rename_i key rest2 hps
      have hrest2 : rest2 <:+ rest := parseStringBodyF_suffix _ hps
      split at h
      · rename_i rest3 heq3
        have hrest3 : rest3 <:+ rest2 :=
          (List.suffix_cons _ _).trans (heq3 ▸ skipWs_suffix rest2)
        split at h
        · rename_i v rest4 hpv4
          simp at h
          obtain ⟨-, rfl⟩ := h
          exact ((((hpv hpv4).trans (skipWs_suffix rest3)).trans hrest3).trans hrest2).trans
            hrest
        · simp at h
      · simp at h
    · simp at h
  · simp at h

theorem parseObjRestF_succ (pv : List Char → Option (JValue × List Char)) (f : Nat)
    (s : List Char) (acc : List (List Char × JValue)) :
    parseObjRestF pv (f + 1) s acc =
      (match skipWs s with
       | [] => Option.none
       | c :: rest =>
         if c = '}' then some (JValue.obj acc, rest)
         else if c = ',' then
           match parseObjEntry pv rest with
           | some ((k, v), rest2) => parseObjRestF pv f rest2 (mapInsert acc k v)
           | Option.none => Option.none
         else Option.none) := rfl

theorem parseArrayRestF_succ (pv : List Char → Option (JValue × List Char)) (f : Nat)
    (s : List Char) (acc : List JValue) :
    parseArrayRestF pv (f + 1) s acc =
      (match skipWs s with
       | [] => Option.none
       | c :: rest =>
         if c = ']' then some (JValue.arr acc, rest)
         else if c = ',' then
           match pv (skipWs rest) with
           | some (v, rest2) => parseArrayRestF pv f rest2 (acc ++ [v])
           | Option.none => Option.none
         else Option.none) := rfl

theorem parseObjRestF_suffix {pv : List Char → Option (JValue × List Char)}
    (hpv : ∀ {s v r}, pv s = some (v, r) → r <:+ s) :
    ∀ (fuel : Nat) {s : List Char} {acc : List (List Char × JValue)} {v : JValue}
      {r : List Char}, parseObjRestF pv fuel s acc = some (v, r) → r <:+ s := by
  intro fuel
  induction fuel with
  | zero => intro s acc v r h; simp [parseObjRestF] at h
  | succ f ih =>
    intro s acc v r h
    rw [parseObjRestF_succ] at h
    split at h
    · simp at h
    · rename_i c rest heq
      have hrest : rest <:+ s := (List.suffix_cons _ _).trans (heq ▸ skipWs_suffix s)
      by_cases hc : c = '}'
      · rw [if_pos hc] at h
        simp at h
        obtain ⟨-, rfl⟩ := h
        exact hrest
      · rw [if_neg hc] at h
        by_cases hc2 : c = ','
        · rw [if_pos hc2] at h
          split at h
          · rename_i k v0 rest2 hent
            exact ((ih h).trans (parseObjEntry_suffix hpv hent)).trans hrest
          · simp at h
        · rw [if_neg hc2] at h
          simp at h

theorem parseArrayRestF_suffix {pv : List Char → Option (JValue × List Char)}
    (hpv : ∀ {s v r}, pv s = some (v, r) → r <:+ s) :
    ∀ (fuel : Nat) {s : List Char} {acc : List JValue} {v : JValue} {r : List Char},
      parseArrayRestF pv fuel s acc = some (v, r) → r <:+ s := by
  intro fuel
  induction fuel with
  | zero => intro s acc v r h; simp [parseArrayRestF] at h
  | succ f ih =>
    intro s acc v r h
    rw [parseArrayRestF_succ] at h
    split at h
    · simp at h
    · rename_i c rest heq
      have hrest : rest <:+ s := (List.suffix_cons _ _).trans (heq ▸ skipWs_suffix s)
      by_cases hc : c = ']'
      · rw [if_pos hc] at h
        simp at h
        obtain ⟨-, rfl⟩ := h
        exact hrest
      · rw [if_neg hc] at h
        by_cases hc2 : c = ','
        · rw [if_pos hc2] at h
          split at h
          · rename_i v0 rest2 hv0
            exact ((ih h).trans ((hpv hv0).trans (skipWs_suffix rest))).trans hrest
          · simp at h
        · rw [if_neg hc2] at h
          simp at h

theorem parseValueF_zero (s : List Char) : parseValueF 0 s = Option.none := by
  cases s <;> rfl

theorem parseValueF_succ_cons (f : Nat) (c : Char) (rest : List Char) :
    parseValueF (f + 1) (c :: rest) =
      (if c = '{' then
        match skipWs rest with
        | [] => Option.none
        | c2 :: rest2 =>
          if c2 = '}' then some (JValue.obj [], rest2)
          else
            match parseObjEntry (parseValueF f) (c2 :: rest2) with
            | some ((k, v), rest3) =>
              parseObjRestF (parseValueF f) (rest3.length + 1) rest3 (mapInsert [] k v)
            | Option.none => Option.none
      else if c = '[' then
        match skipWs rest with
        | [] => Option.none
        | c2 :: rest2 =>
          if c2 = ']' then some (JValue.arr [], rest2)
          else
            match parseValueF f (c2 :: rest2) with
            | some (v, rest3) =>
              parseArrayRestF (parseValueF f) (rest3.length + 1) rest3 [v]
            | Option.none => Option.none
      else if c = '"' then
        (parseStringBodyF (rest.length + 1) rest).map (fun p => (JValue.str p.1, p.2))
      else if c = 't' then
        if rest.take 3 = ['r', 'u', 'e'] then some (JValue.bool true, rest.drop 3)
        else Option.none
      else if c = 'f' then
        if rest.take 4 = ['a', 'l', 's', 'e'] then some (JValue.bool false, rest.drop 4)
        else Option.none
      else if c = 'n' then
        if rest.take 3 = ['u', 'l', 'l'] then some (JValue.null, rest.drop 3)
        else Option.none
      else if c = '-' ∨ isDigit c then
        (parseNumber (c :: rest)).map (fun p => (JValue.num p.1, p.2))
      else Option.none) := rfl

theorem parseValueF_suffix :
    ∀ (fuel : Nat) {s : List Char} {v : JValue} {r : List Char},
      parseValueF fuel s = some (v, r) → r <:+ s := by
  intro fuel
  induction fuel with
  | zero =>
    intro s v r h
    rw [parseValueF_zero] at h
    exact absurd h (by simp)
  | succ f ih =>
    intro s v r h
    obtain _ | ⟨c, rest⟩ := s
    · exact absurd h (by rw [show parseValueF (f + 1) [] = Option.none from rfl]; simp)
    · rw [parseValueF_succ_cons] at h
      by_cases h1 : c = '{'
      · rw [if_pos h1] at h
        split at h
        · simp at h
        · rename_i c2 rest2 heq
          have hr2 : c2 :: rest2 <:+ rest := heq ▸ skipWs_suffix rest
          by_cases hb : c2 = '}'
          · rw [if_pos hb] at h
            simp at h
            obtain ⟨-, rfl⟩ := h
            exact ((List.suffix_cons _ _).trans hr2).trans (List.suffix_cons _ _)
          · rw [if_neg hb] at h
            split at h
            · rename_i k v0 rest3 hent
              have h2 : rest3 <:+ c2 :: rest2 :=
                parseObjEntry_suffix (fun {a b c3} hp => ih hp) hent
              exact (((parseObjRestF_suffix (fun {a b c3} hp => ih hp) _ h).trans h2).trans
                hr2).trans (List.suffix_cons _ _)
            · simp at h
      · rw [if_neg h1] at h
        by_cases h2 : c = '['
        · rw [if_pos h2] at h
          split at h
          · simp at h
          · rename_i c2 rest2 heq
            have hr2 : c2 :: rest2 <:+ rest := heq ▸ skipWs_suffix rest
            by_cases hb : c2 = ']'
            · rw [if_pos hb] at h
              simp at h
              obtain ⟨-, rfl⟩ := h
              exact ((List.suffix_cons _ _).trans hr2).trans (List.suffix_cons _ _)
            · rw [if_neg hb] at h
              split at h
              · rename_i v0 rest3 hv0
                exact (((parseArrayRestF_suffix (fun {a b c3} hp => ih hp) _ h).trans
                  (ih hv0)).trans hr2).trans (List.suffix_cons _ _)
              · simp at h
        · rw [if_neg h2] at h
          by_cases h3 : c = '"'
          · rw [if_pos h3] at h
            cases hps : parseStringBodyF (rest.length + 1) rest with
            | none => rw [hps] at h; simp at h
            | some p =>
              rw [hps] at h
              simp at h
              obtain ⟨-, rfl⟩ := h
              exact (parseStringBodyF_suffix _ hps).trans (List.suffix_cons _ _)
          · rw [if_neg h3] at h
            by_cases h4 : c = 't'
            · rw [if_pos h4] at h
              split at h
              · simp at h
                obtain ⟨-, rfl⟩ := h
                exact (List.drop_suffix _ _).trans (List.suffix_cons _ _)
              · simp at h
            · rw [if_neg h4] at h
              by_cases h5 : c = 'f'
              · rw [if_pos h5] at h
                split at h
                · simp at h
                  obtain ⟨-, rfl⟩ := h
                  exact (List.drop_suffix _ _).trans (List.suffix_cons _ _)
                · simp at h
              · rw [if_neg h5] at h
                by_cases h6 : c = 'n'
                · rw [if_pos h6] at h
                  split at h
                  · simp at h
                    obtain ⟨-, rfl⟩ := h
                    exact (List.drop_suffix _ _).trans (List.suffix_cons _ _)
                  · simp at h
                · rw [if_neg h6] at h
                  split at h
                  · cases hpn : parseNumber (c :: rest) with
                    | none => rw [hpn] at h; simp at h
                    | some p =>
                      rw [hpn] at h
                      simp at h
                      obtain ⟨-, rfl⟩ := h
                      exact parseNumber_suffix hpn
                  · simp at h

/-! ### Soundness of the structured-value scan -/

theorem byteLen_suffix_le {l1 l2 : List Char} (h : l1 <:+ l2) : byteLen l1 ≤ byteLen l2 := by
  obtain ⟨pre, rfl⟩ := h
  rw [byteLen_append]
  omega

theorem byteLen_take_add_drop (text : List Char) (n : Nat) :
    byteLen (text.take n) + byteLen (text.drop n) = byteLen text := by
  rw [← byteLen_append, List.take_append_drop]

theorem find_all_json_loop_succ (f : Nat) (suffix : List Char) (off : Nat) :
    find_all_json_loop (f + 1) suffix off =
      (match suffix.findIdx? (fun c => c = '{' || c = '[') with
       | Option.none => []
       | some k =>
         match parseValueF ((skipWs (suffix.drop k)).length + 1) (skipWs (suffix.drop k)) with
         | some (v, rem) =>
           if 1 < byteLen (suffix.drop k) - byteLen rem then
             (off + byteLen (suffix.take k), v, byteLen (suffix.drop k) - byteLen rem) ::
               find_all_json_loop f rem
                 (off + byteLen (suffix.take k) + (byteLen (suffix.drop k) - byteLen rem))
           else find_all_json_loop f (suffix.drop (k + 1)) (off + byteLen (suffix.take k) + 1)
         | Option.none =>
           find_all_json_loop f (suffix.drop (k + 1)) (off + byteLen (suffix.take k) + 1)) :=
  rfl

theorem find_all_json_loop_succ_nofind (f : Nat) (suffix : List Char) (off : Nat)
    (hfind : suffix.findIdx? (fun c => c = '{' || c = '[') = Option.none) :
    find_all_json_loop (f + 1) suffix off = [] := by
  rw [find_all_json_loop_succ, hfind]

theorem find_all_json_loop_succ_noparse (f : Nat) (suffix : List Char) (off k : Nat)
    (hfind : suffix.findIdx? (fun c => c = '{' || c = '[') = some k)
    (hp : parseValueF ((skipWs (suffix.drop k)).length + 1) (skipWs (suffix.drop k)) =
      Option.none) :
    find_all_json_loop (f + 1) suffix off =
      find_all_json_loop f (suffix.drop (k + 1)) (off + byteLen (suffix.take k) + 1) := by
  rw [find_all_json_loop_succ, hfind]
  simp only [hp]

theorem find_all_json_loop_succ_record (f : Nat) (suffix : List Char) (off k : Nat)
    (v : JValue) (rem : List Char)
    (hfind : suffix.findIdx? (fun c => c = '{' || c = '[') = some k)
    (hp : parseValueF ((skipWs (suffix.drop k)).length + 1) (skipWs (suffix.drop k)) =
      some (v, rem))
    (hguard : 1 < byteLen (suffix.drop k) - byteLen rem) :
    find_all_json_loop (f + 1) suffix off =
      (off + byteLen (suffix.take k), v, byteLen (suffix.drop k) - byteLen rem) ::
        find_all_json_loop f rem
          (off + byteLen (suffix.take k) + (byteLen (suffix.drop k) - byteLen rem)) := by
  rw [find_all_json_loop_succ, hfind]
  simp only [hp, if_pos hguard]

theorem find_all_json_loop_succ_small (f : Nat) (suffix : List Char) (off k : Nat)
    (v : JValue) (rem : List Char)
    (hfind : suffix.findIdx? (fun c => c = '{' || c = '[') = some k)
    (hp : parseValueF ((skipWs (suffix.drop k)).length + 1) (skipWs (suffix.drop k)) =
      some (v, rem))
    (hguard : ¬ (1 < byteLen (suffix.drop k) - byteLen rem)) :
    find_all_json_loop (f + 1) suffix off =
      find_all_json_loop f (suffix.drop (k + 1)) (off + byteLen (suffix.take k) + 1) := by
  rw [find_all_json_loop_succ, hfind]
  simp only [hp, if_neg hguard]

theorem find_all_json_loop_sound (text : List Char) :
    ∀ (fuel m off : Nat), off = byteLen (text.take m) →
      (∀ r ∈ find_all_json_loop fuel (text.drop m) off, off ≤ r.1) ∧
      List.Chain' (fun a b => a.1 + a.2.2 ≤ b.1)
        (find_all_json_loop fuel (text.drop m) off) ∧
      (∀ r ∈ find_all_json_loop fuel (text.drop m) off, RegionSound text r) := by
  intro fuel
  induction fuel with
  | zero =>
    intro m off hoff
    refine ⟨?_, ?_, ?_⟩ <;> simp [find_all_json_loop]
  | succ f ih =>
    intro m off hoff
    cases hfind : (text.drop m).findIdx? (fun c => c = '{' || c = '[') with
    | none =>
      rw [find_all_json_loop_succ_nofind f _ off hfind]
      refine ⟨?_, ?_, ?_⟩ <;> simp
    | some k =>
      have hk := (List.findIdx?_eq_some_iff_findIdx_eq.mp hfind)
      have hk_lt : k < (text.drop m).length := hk.1
      have hmk_lt : m + k < text.length := by
        rw [List.length_drop] at hk_lt
        omega
      have hp_char : (fun c => c = '{' || c = '[') ((text.drop m)[k]) = true := by
        have := @List.findIdx_getElem _ (fun c => c = '{' || c = '[') (text.drop m)
          (by omega)
        simpa [hk.2] using this
      have hchar : (text.drop m)[k] = '{' ∨ (text.drop m)[k] = '[' := by
        simpa using hp_char
      have hgetmk : (text.drop m)[k] = getElem text (m + k) hmk_lt := List.getElem_drop text
      have hsize1 : (getElem text (m + k) hmk_lt).utf8Size = 1 := by
        rw [← hgetmk]
        rcases hchar with hc | hc <;> rw [hc] <;> decide
      have hdropk : (text.drop m).drop k = text.drop (m + k) := List.drop_drop k m text
      have htakek : off + byteLen ((text.drop m).take k) = byteLen (text.take (m + k)) := by
        rw [hoff, List.take_add, byteLen_append]
      have hheadk : (text.drop (m + k)).head? = some (getElem text (m + k) hmk_lt) := by
        rw [List.head?_drop, List.getElem?_eq_getElem hmk_lt]
      have hhead : (text.drop (m + k)).head? = some '{' ∨
          (text.drop (m + k)).head? = some '[' := by
        rw [hheadk, ← hgetmk]
        rcases hchar with hc | hc
        · exact Or.inl (by rw [hc])
        · exact Or.inr (by rw [hc])
      have htake_succ : byteLen (text.take (m + k + 1)) = byteLen (text.take (m + k)) + 1 := by
        have h1 := @ctbp_succ text (m + k) hmk_lt
        simp only [char_to_byte_pos] at h1
        simp [h1, List.get_eq_getElem, hsize1]
      have hdrop1 : (text.drop m).drop (k + 1) = text.drop (m + (k + 1)) :=
        List.drop_drop (k + 1) m text
      have hoff1 : off + byteLen ((text.drop m).take k) + 1 =
          byteLen (text.take (m + (k + 1))) := by
        rw [htakek, show m + (k + 1) = m + k + 1 by omega, htake_succ]
      cases hp : parseValueF ((skipWs ((text.drop m).drop k)).length + 1)
          (skipWs ((text.drop m).drop k)) with
      | none =>
        rw [find_all_json_loop_succ_noparse f _ off k hfind hp, hdrop1]
        obtain ⟨hl, hc, hs⟩ :=
          ih (m + (k + 1)) (off + byteLen ((text.drop m).take k) + 1) hoff1
        refine ⟨fun r hr => ?_, hc, hs⟩
        have := hl r hr
        omega
      | some p =>
        obtain ⟨v, rem⟩ := p
        by_cases hguard : 1 < byteLen ((text.drop m).drop k) - byteLen rem
        · rw [find_all_json_loop_succ_record f _ off k v rem hfind hp hguard]
          -- identify the new suffix with a drop of the text
          have hremsfx : rem <:+ text.drop (m + k) := by
            have h1 : rem <:+ skipWs ((text.drop m).drop k) := parseValueF_suffix _ hp
            exact (h1.trans (skipWs_suffix _)).trans (by rw [hdropk])
          have hremtext : rem <:+ text := hremsfx.trans (text.drop_suffix (m + k))
          obtain ⟨mrem, hmrem⟩ : ∃ mr, rem = text.drop mr :=
            ⟨text.length - rem.length, List.suffix_iff_eq_drop.mp hremtext⟩
          have hby : byteLen rem ≤ byteLen (text.drop (m + k)) := byteLen_suffix_le hremsfx
          have hcomp1 := byteLen_take_add_drop text (m + k)
          have hcomp2 := byteLen_take_add_drop text mrem
          have hoffrec : off + byteLen ((text.drop m).take k) +
              (byteLen ((text.drop m).drop k) - byteLen rem) =
              byteLen (text.take mrem) := by
            rw [htakek, hdropk]
            have hbr : byteLen (text.drop mrem) = byteLen rem := by rw [← hmrem]
            omega
          obtain ⟨hl, hc, hs⟩ := ih mrem
            (off + byteLen ((text.drop m).take k) +
              (byteLen ((text.drop m).drop k) - byteLen rem)) hoffrec
          rw [← hmrem] at hl hc hs
          have habs : off + byteLen ((text.drop m).take k) = byteLen (text.take (m + k)) :=
            htakek
          refine ⟨?_, ?_, ?_⟩
          · intro r hr
            rcases List.mem_cons.mp hr with rfl | hr2
            · omega
            · have := hl r hr2
              omega
          · refine List.Chain'.cons' hc ?_
            intro y hy
            have hym : y ∈ find_all_json_loop f rem
                (off + byteLen ((text.drop m).take k) +
                  (byteLen ((text.drop m).drop k) - byteLen rem)) :=
              List.mem_of_mem_head? hy
            have := hl y hym
            simpa using this
          · intro r hr
            rcases List.mem_cons.mp hr with rfl | hr2
            · refine ⟨hguard, ?_, ?_⟩
              · have : byteLen ((text.drop m).drop k) - byteLen rem ≤
                    byteLen (text.drop (m + k)) := by
                  rw [hdropk]
                  omega
                simp only []
                omega
              · refine ⟨m + k, rem, ?_, hhead, ?_, ?_⟩
                · exact htakek.symm ▸ rfl
                · rw [← hdropk]
                  exact hp
                · rw [← hdropk]
            · exact hs r hr2
        · rw [find_all_json_loop_succ_small f _ off k v rem hfind hp hguard, hdrop1]
          obtain ⟨hl, hc, hs⟩ :=
            ih (m + (k + 1)) (off + byteLen ((text.drop m).take k) + 1) hoff1
          refine ⟨fun r hr => ?_, hc, hs⟩
          have := hl r hr
          omega

/-- C6: every region recorded by `find_all_json` comes from one successful
streaming parse starting exactly at a scanned candidate `{` or `[` (its byte
start is the candidate position, its value the parsed value, its length the
consumed bytes, which exceed one); the scan resumes after the consumed region
(or one character past a failed candidate), so the recorded regions are
non-overlapping, inside the line, and in left-to-right order. -/
theorem C6_find_all_json_scan (text : List Char) :
    List.Chain' (fun a b => a.1 + a.2.2 ≤ b.1) (find_all_json text) ∧
      ∀ r ∈ find_all_json text, RegionSound text r := by
  have h := find_all_json_loop_sound text (text.length + 1) 0 0 (by simp [byteLen])
  rw [List.drop_zero] at h
  exact ⟨h.2.1, h.2.2⟩

theorem C6_find_all_json_scan_witness :
    List.Chain' (fun a b => a.1 + a.2.2 ≤ b.1)
      (find_all_json (("x\x7b\"a\":1\x7d y [1,2] \x7b").toList)) ∧
      ∀ r ∈ find_all_json (("x\x7b\"a\":1\x7d y [1,2] \x7b").toList),
        RegionSound (("x\x7b\"a\":1\x7d y [1,2] \x7b").toList) r :=
  C6_find_all_json_scan (("x\x7b\"a\":1\x7d y [1,2] \x7b").toList)

/-- C8: on the line `{"a":"x","b":"x"}` the detector tags key `a`, tags the
first `"x"` occurrence (bytes 5 to 8) as the string value for key `a`, tags
key `b`, and then re-tags the very same first `"x"` occurrence for key `b`:
both emitted string-value spans cover the identical range `[5, 8)`. -/
theorem C8_duplicate_string_relocation :
    highlight_json (("\x7b\"a\":\"x\",\"b\":\"x\"\x7d").toList) =
      some [⟨1, 4, HighlightStyle.jsonKey, 50⟩, ⟨5, 8, HighlightStyle.jsonString, 50⟩,
        ⟨9, 12, HighlightStyle.jsonKey, 50⟩, ⟨5, 8, HighlightStyle.jsonString, 50⟩] := by
  rfl

/-! ### First-occurrence search -/

theorem findSubIdx_nil (pat : List Char) :
    findSubIdx [] pat = (if pat.isPrefixOf [] then some 0 else Option.none) := rfl

theorem findSubIdx_cons (c : Char) (rest pat : List Char) :
    findSubIdx (c :: rest) pat =
      (if pat.isPrefixOf (c :: rest) then some 0
       else (findSubIdx rest pat).map (fun n => n + 1)) := rfl

/-- A successful `findSubIdx` is the first occurrence: the pattern starts at
the returned character index and at no earlier index, and the index is within
the text. -/
theorem findSubIdx_some {pat : List Char} :
    ∀ {text : List Char} {j : Nat}, findSubIdx text pat = some j →
      j ≤ text.length ∧ pat.isPrefixOf (text.drop j) = true ∧
        ∀ i < j, ¬ (pat.isPrefixOf (text.drop i) = true) := by
  intro text
  induction text with
  | nil =>
    intro j h
    rw [findSubIdx_nil] at h
    split at h
    · rename_i hp
      simp at h
      subst h
      exact ⟨by simp, hp, by omega⟩
    · simp at h
  | cons c rest ih =>
    intro j h
    rw [findSubIdx_cons] at h
    split at h
    · rename_i hp
      simp at h
      subst h
      exact ⟨by simp, hp, by omega⟩
    · rename_i hp
      cases hr : findSubIdx rest pat with
      | none => rw [hr] at h; simp at h
      | some j0 =>
        rw [hr] at h
        simp at h
        subst h
        obtain ⟨hle, hpre, hmin⟩ := ih hr
        refine ⟨by simp; omega, by simpa using hpre, ?_⟩
        intro i hi
        cases i with
        | zero => simpa using hp
        | succ i0 =>
          have := hmin i0 (by omega)
          simpa using this

/-! ### Key tagging -/

/-- Every key reachable in the parsed value whose first quoted occurrence in
the region text is colon-followed contributes its span to
`highlight_json_value`. -/
theorem key_span_mem :
    ∀ (fuel : Nat) (t : List Char) (v : JValue) (b : Nat) (k : List Char) (p : Nat),
      k ∈ collectKeysF fuel v → find_json_key t k = some p →
      (⟨b + p, b + p + byteLen k + 2, HighlightStyle.jsonKey, 50⟩ : Span) ∈
        highlight_json_valueF fuel t v b := by
  intro fuel
  induction fuel with
  | zero =>
    intro t v b k p hk hf
    simp [collectKeysF] at hk
  | succ f ih =>
    intro t v b k p hk hf
    cases v with
    | obj entries =>
      simp only [collectKeysF] at hk
      rw [List.mem_flatMap] at hk
      obtain ⟨kv, hkv, hk2⟩ := hk
      simp only [highlight_json_valueF]
      rw [List.mem_flatMap]
      refine ⟨kv, hkv, ?_⟩
      rw [List.mem_append]
      rcases List.mem_cons.mp hk2 with rfl | hk3
      · left
        rw [hf]
        exact List.mem_singleton.mpr rfl
      · right
        exact ih t kv.2 b k p hk3 hf
    | arr elems =>
      simp only [collectKeysF] at hk
      rw [List.mem_flatMap] at hk
      obtain ⟨el, hel, hk2⟩ := hk
      simp only [highlight_json_valueF]
      rw [List.mem_flatMap]
      exact ⟨el, hel, ih t el b k p hk2 hf⟩
    | str s => simp [collectKeysF] at hk
    | num raw => simp [collectKeysF] at hk
    | bool b0 => simp [collectKeysF] at hk
    | null => simp [collectKeysF] at hk

theorem find_json_key_eq_none (t k : List Char)
    (hidx : findSubIdx t (quoteWrap k) = Option.none) :
    find_json_key t k = Option.none := by
  unfold find_json_key
  rw [hidx]

theorem find_json_key_eq_some (t k : List Char) (j : Nat)
    (hidx : findSubIdx t (quoteWrap k) = some j) :
    find_json_key t k =
      (if ((t.drop (j + (quoteWrap k).length)).dropWhile rustWs).head? = some ':' then
        some (byteLen (t.take j))
      else Option.none) := by
  unfold find_json_key
  rw [hidx]

/-- C7 (amended): `find_json_key` inspects only the FIRST occurrence of the
quoted key literal in the region text — it returns that occurrence exactly
when, ignoring whitespace, a colon follows it, and returns nothing at all when
the first occurrence is not colon-followed (even if a later occurrence is);
for every key of every object reachable in a region's parsed value, a
successful `find_json_key` yields a json-key span at the located position
relative to the region start and offset by the region's absolute start. -/
theorem C7_first_occurrence_key_tagging :
    (∀ (t k : List Char) (p : Nat), find_json_key t k = some p →
      ∃ j, p = byteLen (t.take j) ∧ (quoteWrap k).isPrefixOf (t.drop j) = true ∧
        (∀ i < j, ¬ ((quoteWrap k).isPrefixOf (t.drop i) = true)) ∧
        ((t.drop (j + (quoteWrap k).length)).dropWhile rustWs).head? = some ':') ∧
    (∀ (t k : List Char) (j : Nat), findSubIdx t (quoteWrap k) = some j →
      ((t.drop (j + (quoteWrap k).length)).dropWhile rustWs).head? ≠ some ':' →
      find_json_key t k = Option.none) ∧
    (∀ (text : List Char) (r : Nat × JValue × Nat), r ∈ find_all_json text →
      ∀ (k : List Char) (p : Nat),
        k ∈ collectKeysF ((byteSliceD text r.1 (r.1 + r.2.2)).length + 1) r.2.1 →
        find_json_key (byteSliceD text r.1 (r.1 + r.2.2)) k = some p →
        (⟨r.1 + p, r.1 + p + byteLen k + 2, HighlightStyle.jsonKey, 50⟩ : Span) ∈
          (highlight_json text).getD []) := by
  refine ⟨?_, ?_, ?_⟩
  · intro t k p hf
    cases hidx : findSubIdx t (quoteWrap k) with
    | none =>
      rw [find_json_key_eq_none t k hidx] at hf
      simp at hf
    | some j =>
      rw [find_json_key_eq_some t k j hidx] at hf
      split at hf
      · rename_i hcolon
        simp at hf
        obtain ⟨hle, hpre, hmin⟩ := findSubIdx_some hidx
        exact ⟨j, hf.symm, hpre, hmin, hcolon⟩
      · simp at hf
  · intro t k j hidx hcolon
    rw [find_json_key_eq_some t k j hidx]
    exact if_neg hcolon
  · intro text r hr k p hk hf
    have hne : ¬ (find_all_json text).isEmpty = true := by
      intro hc
      rw [List.isEmpty_iff] at hc
      rw [hc] at hr
      simp at hr
    unfold highlight_json
    rw [if_neg hne]
    simp only [Option.getD_some]
    rw [List.mem_flatMap]
    exact ⟨r, hr, key_span_mem _ _ _ _ k p hk hf⟩

theorem C7_counterexample :
    find_all_json (("\x7b\"b\":\"a\",\"a\":1\x7d").toList) =
      [(0, JValue.obj [(['a'], JValue.num ['1']), (['b'], JValue.str ['a'])], 15)] ∧
    find_json_key_claimed (("\x7b\"b\":\"a\",\"a\":1\x7d").toList) (['a']) = some 9 ∧
    find_json_key (("\x7b\"b\":\"a\",\"a\":1\x7d").toList) (['a']) = Option.none ∧
    (⟨9, 12, HighlightStyle.jsonKey, 50⟩ : Span) ∉
      (highlight_json (("\x7b\"b\":\"a\",\"a\":1\x7d").toList)).getD [] := by
  refine ⟨rfl, rfl, rfl, ?_⟩
  decide

/-! ### Every detector span covers an occurrence of its matched literal -/

theorem byteLen_quoteWrap (k : List Char) : byteLen (quoteWrap k) = byteLen k + 2 := by
  have hq : ('"' : Char).utf8Size = 1 := by decide
  simp [quoteWrap, byteLen, hq]
  omega

theorem byteLen_ascii : ∀ {l : List Char}, (∀ c ∈ l, c.utf8Size = 1) → byteLen l = l.length := by
  intro l
  induction l with
  | nil => intro; rfl
  | cons c rest ih =>
    intro h
    rw [byteLen_cons, h c (by simp), ih (fun c2 hc2 => h c2 (by simp [hc2]))]
    simp [Nat.add_comm]

theorem strFind_occ {t pat : List Char} {p : Nat} (h : strFind t pat = some p) :
    ∃ j, j ≤ t.length ∧ p = byteLen (t.take j) ∧ pat.isPrefixOf (t.drop j) = true := by
  unfold strFind at h
  cases hidx : findSubIdx t pat with
  | none => rw [hidx] at h; simp at h
  | some j =>
    rw [hidx] at h
    simp at h
    obtain ⟨hle, hpre, -⟩ := findSubIdx_some hidx
    exact ⟨j, hle, h.symm, hpre⟩

theorem find_json_key_occ {t k : List Char} {p : Nat} (hf : find_json_key t k = some p) :
    ∃ j, j ≤ t.length ∧ p = byteLen (t.take j) ∧ (quoteWrap k).isPrefixOf (t.drop j) = true := by
  cases hidx : findSubIdx t (quoteWrap k) with
  | none =>
    rw [find_json_key_eq_none t k hidx] at hf
    simp at hf
  | some j =>
    rw [find_json_key_eq_some t k j hidx] at hf
    split at hf
    · simp at hf
      obtain ⟨hle, hpre, -⟩ := findSubIdx_some hidx
      exact ⟨j, hle, hf.symm, hpre⟩
    · simp at hf

theorem find_json_string_loop_succ_eq (f : Nat) (t pat : List Char) (base : Nat) :
    find_json_string_loop (f + 1) t pat base =
      (match findSubIdx t pat with
       | Option.none => Option.none
       | some k =>
         if ((t.drop (k + pat.length)).dropWhile rustWs).head? = some ':' then
           find_json_string_loop f (t.drop (k + 1)) pat (base + byteLen (t.take k) + 1)
         else some (base + byteLen (t.take k))) := rfl

theorem find_json_string_loop_succ_some (f : Nat) (t pat : List Char) (base k : Nat)
    (hidx : findSubIdx t pat = some k) :
    find_json_string_loop (f + 1) t pat base =
      (if ((t.drop (k + pat.length)).dropWhile rustWs).head? = some ':' then
        find_json_string_loop f (t.drop (k + 1)) pat (base + byteLen (t.take k) + 1)
      else some (base + byteLen (t.take k))) := by
  rw [find_json_string_loop_succ_eq, hidx]

theorem find_json_string_loop_succ_none (f : Nat) (t pat : List Char) (base : Nat)
    (hidx : findSubIdx t pat = Option.none) :
    find_json_string_loop (f + 1) t pat base = Option.none := by
  rw [find_json_string_loop_succ_eq, hidx]

theorem find_json_string_loop_occ {s0 : List Char} (text : List Char) :
    ∀ (fuel d p : Nat), d ≤ text.length →
      find_json_string_loop fuel (text.drop d) ('"' :: s0) (byteLen (text.take d)) = some p →
      ∃ j, j ≤ text.length ∧ p = byteLen (text.take j) ∧
        ('"' :: s0).isPrefixOf (text.drop j) = true := by
  intro fuel
  induction fuel with
  | zero =>
    intro d p hd h
    simp [find_json_string_loop] at h
  | succ f ih =>
    intro d p hd h
    cases hidx : findSubIdx (text.drop d) ('"' :: s0) with
    | none =>
      rw [find_json_string_loop_succ_none _ _ _ _ hidx] at h
      simp at h
    | some k =>
      rw [find_json_string_loop_succ_some _ _ _ _ _ hidx] at h
      obtain ⟨hk_le, hpre, -⟩ := findSubIdx_some hidx
      have hdk : (text.drop d).drop k = text.drop (d + k) := List.drop_drop k d text
      rw [hdk] at hpre
      have hdklen : d + k ≤ text.length := by
        rw [List.length_drop] at hk_le
        omega
      have htk : byteLen (text.take d) + byteLen ((text.drop d).take k) =
          byteLen (text.take (d + k)) := by
        rw [List.take_add, byteLen_append]
      split at h
      · have hlt : d + k < text.length := by
          by_contra hge
          have hnil : text.drop (d + k) = [] := List.drop_eq_nil_of_le (by omega)
          rw [hnil] at hpre
          simp at hpre
        have hchar : getElem text (d + k) hlt = '"' := by
          rw [List.isPrefixOf_iff_prefix] at hpre
          obtain ⟨tl, htl⟩ := hpre
          have hhd : (text.drop (d + k)).head? = some '"' := by
            rw [← htl]
            rfl
          rw [List.head?_drop, List.getElem?_eq_getElem hlt] at hhd
          simpa using hhd
        have hsz : (getElem text (d + k) hlt).utf8Size = 1 := by
          rw [hchar]
          decide
        have hsucc : byteLen (text.take (d + k)) + 1 = byteLen (text.take (d + k + 1)) := by
          have h1 := @ctbp_succ text (d + k) hlt
          simp only [char_to_byte_pos] at h1
          simp [h1, List.get_eq_getElem, hsz]
        have hdk1 : (text.drop d).drop (k + 1) = text.drop (d + (k + 1)) :=
          List.drop_drop (k + 1) d text
        rw [hdk1] at h
        have harg : byteLen (text.take d) + byteLen ((text.drop d).take k) + 1 =
            byteLen (text.take (d + (k + 1))) := by
          rw [htk, show d + (k + 1) = d + k + 1 by omega, ← hsucc]
        rw [harg] at h
        exact ih (d + (k + 1)) p (by omega) h
      · simp at h
        exact ⟨d + k, hdklen, by omega, hpre⟩

theorem find_json_string_occ {t s : List Char} {p : Nat} (h : find_json_string t s = some p) :
    ∃ j, j ≤ t.length ∧ p = byteLen (t.take j) ∧ (quoteWrap s).isPrefixOf (t.drop j) = true := by
  unfold find_json_string at h
  have h2 : find_json_string_loop (t.length + 1) (t.drop 0) ('"' :: (s ++ ['"']))
      (byteLen (t.take 0)) = some p := by
    simpa [quoteWrap] using h
  exact find_json_string_loop_occ t (t.length + 1) 0 p (by omega) h2

/-- Every span emitted by `highlight_json_value` covers (in bytes, relative to
the region base) an occurrence of the literal text the detector searched for:
the quoted key, the quoted string, or the number/boolean/null literal. -/
theorem span_occurrence :
    ∀ (fuel : Nat) (t : List Char) (v : JValue) (b : Nat) (sp : Span),
      sp ∈ highlight_json_valueF fuel t v b →
      ∃ pat j, j ≤ t.length ∧ sp.stop = sp.start + byteLen pat ∧
        sp.start = b + byteLen (t.take j) ∧ pat.isPrefixOf (t.drop j) = true := by
  intro fuel
  induction fuel with
  | zero =>
    intro t v b sp hsp
    simp [highlight_json_valueF] at hsp
  | succ f ih =>
    intro t v b sp hsp
    cases v with
    | obj entries =>
      simp only [highlight_json_valueF] at hsp
      rw [List.mem_flatMap] at hsp
      obtain ⟨kv, hkv, hsp⟩ := hsp
      rw [List.mem_append] at hsp
      rcases hsp with hsp | hsp
      · cases hf : find_json_key t kv.1 with
        | none => rw [hf] at hsp; simp at hsp
        | some p =>
          rw [hf] at hsp
          simp at hsp
          subst hsp
          obtain ⟨j, hle, hp, hpre⟩ := find_json_key_occ hf
          refine ⟨quoteWrap kv.1, j, hle, ?_, ?_, hpre⟩
          · simp only [byteLen_quoteWrap]
            omega
          · simpa using hp
      · exact ih t kv.2 b sp hsp
    | arr elems =>
      simp only [highlight_json_valueF] at hsp
      rw [List.mem_flatMap] at hsp
      obtain ⟨el, hel, hsp⟩ := hsp
      exact ih t el b sp hsp
    | str s =>
      simp only [highlight_json_valueF] at hsp
      cases hf : find_json_string t s with
      | none => rw [hf] at hsp; simp at hsp
      | some p =>
        rw [hf] at hsp
        simp at hsp
        subst hsp
        obtain ⟨j, hle, hp, hpre⟩ := find_json_string_occ hf
        refine ⟨quoteWrap s, j, hle, ?_, ?_, hpre⟩
        · simp only [byteLen_quoteWrap]
          omega
        · simpa using hp
    | num raw =>
      simp only [highlight_json_valueF] at hsp
      cases hf : strFind t raw with
      | none => rw [hf] at hsp; simp at hsp
      | some p =>
        rw [hf] at hsp
        simp at hsp
        subst hsp
        obtain ⟨j, hle, hp, hpre⟩ := strFind_occ hf
        exact ⟨raw, j, hle, rfl, by simpa using hp, hpre⟩
    | bool b0 =>
      simp only [highlight_json_valueF] at hsp
      cases hf : strFind t (if b0 then ['t', 'r', 'u', 'e'] else ['f', 'a', 'l', 's', 'e']) with
      | none => rw [hf] at hsp; simp at hsp
      | some p =>
        rw [hf] at hsp
        simp at hsp
        subst hsp
        obtain ⟨j, hle, hp, hpre⟩ := strFind_occ hf
        exact ⟨(if b0 then ['t', 'r', 'u', 'e'] else ['f', 'a', 'l', 's', 'e']), j, hle, rfl,
          by simpa using hp, hpre⟩
    | null =>
      simp only [highlight_json_valueF] at hsp
      cases hf : strFind t (['n', 'u', 'l', 'l']) with
      | none => rw [hf] at hsp; simp at hsp
      | some p =>
        rw [hf] at hsp
        simp at hsp
        subst hsp
        obtain ⟨j, hle, hp, hpre⟩ := strFind_occ hf
        refine ⟨['n', 'u', 'l', 'l'], j, hle, ?_, by simpa using hp, hpre⟩
        have h4 : byteLen (['n', 'u', 'l', 'l']) = 4 := by decide
        simp only [h4]

/-- Lifting `span_occurrence` through the region slice: every span of
`highlight_json` covers, in bytes on the whole line, an occurrence of its
matched literal starting at some character index `j`. -/
theorem highlight_json_span_occ {text : List Char} {sp : Span}
    (hsp : sp ∈ (highlight_json text).getD []) :
    ∃ pat j, j ≤ text.length ∧ sp.stop = sp.start + byteLen pat ∧
      sp.start = byteLen (text.take j) ∧ pat.isPrefixOf (text.drop j) = true := by
  by_cases hempty : (find_all_json text).isEmpty = true
  · unfold highlight_json at hsp
    rw [if_pos hempty] at hsp
    simp at hsp
  · unfold highlight_json at hsp
    rw [if_neg hempty] at hsp
    simp only [Option.getD_some] at hsp
    rw [List.mem_flatMap] at hsp
    obtain ⟨r, hr, hmem⟩ := hsp
    have hsound := (find_all_json_loop_sound text (text.length + 1) 0 0 (by simp [byteLen])).2.2
    rw [List.drop_zero] at hsound
    obtain ⟨hgt1, hinside, k, rem, hk, hhead, hp, he⟩ := hsound r hr
    have hklt : k < text.length := by
      by_contra hge
      have hnil : text.drop k = [] := List.drop_eq_nil_of_le (by omega)
      rw [hnil] at hhead
      rcases hhead with hh | hh <;> simp at hh
    have hremsfx : rem <:+ text.drop k :=
      (parseValueF_suffix _ hp).trans (skipWs_suffix _)
    have hremtext : rem <:+ text := hremsfx.trans (List.drop_suffix k text)
    have hmrem : rem = text.drop (text.length - rem.length) :=
      List.suffix_iff_eq_drop.mp hremtext
    have hkmrem : k ≤ text.length - rem.length := by
      have h1 := hremsfx.length_le
      rw [List.length_drop] at h1
      omega
    have hmlen : text.length - rem.length ≤ text.length := by omega
    have hstop_r : r.1 + r.2.2 = byteLen (text.take (text.length - rem.length)) := by
      have hc1 := byteLen_take_add_drop text k
      have hc2 := byteLen_take_add_drop text (text.length - rem.length)
      have hrem_b : byteLen (text.drop (text.length - rem.length)) = byteLen rem := by
        rw [← hmrem]
      have hble : byteLen rem ≤ byteLen (text.drop k) := byteLen_suffix_le hremsfx
      omega
    have hslice : byteSliceD text r.1 (r.1 + r.2.2) =
        (text.take (text.length - rem.length)).drop k := by
      unfold byteSliceD
      have hsl := sliceBytes_ctbp text k (text.length - rem.length) hkmrem
      simp only [char_to_byte_pos] at hsl
      rw [hk, ← hstop_r] at hsl
      rw [hsl]
      rfl
    rw [hslice] at hmem
    obtain ⟨pat, j, hj_le, hstop_sp, hstart_sp, hpre⟩ := span_occurrence _ _ _ _ _ hmem
    have hrtlen : ((text.take (text.length - rem.length)).drop k).length =
        text.length - rem.length - k := by
      rw [List.length_drop, List.length_take]
      omega
    have hkj : k + j ≤ text.length - rem.length := by
      rw [hrtlen] at hj_le
      omega
    have happ := @take_drop_append _ text k (text.length - rem.length)
      hkmrem hmlen
    have htake_eq : ((text.take (text.length - rem.length)).drop k).take j =
        (text.drop k).take j := by
      conv_rhs => rw [← happ]
      rw [List.take_append_of_le_length (by rw [hrtlen]; omega)]
    have hstart_text : sp.start = byteLen (text.take (k + j)) := by
      have hsplit : text.take (k + j) = text.take k ++ (text.drop k).take j :=
        List.take_add text k j
      rw [hsplit, byteLen_append, hk]
      rw [htake_eq] at hstart_sp
      omega
    have hpre_text : pat.isPrefixOf (text.drop (k + j)) = true := by
      rw [List.isPrefixOf_iff_prefix] at hpre ⊢
      have hdd : ((text.take (text.length - rem.length)).drop k).drop j =
          (text.take (text.length - rem.length)).drop (k + j) :=
        List.drop_drop j k (text.take (text.length - rem.length))
      rw [hdd] at hpre
      have happ2 := @take_drop_append _ text (k + j)
        (text.length - rem.length) hkj hmlen
      exact hpre.trans ⟨text.drop (text.length - rem.length), happ2⟩
    exact ⟨pat, k + j, by omega, hstop_sp, hstart_text, hpre_text⟩

theorem mem_highlight_line_json {text : List Char} {sp : Span}
    (hsp : sp ∈ (highlight_json text).getD []) (rules : List HeuristicRule)
    (cf : Option FilterExpr) (he : Bool) : sp ∈ highlight_line rules text cf he true := by
  unfold highlight_line
  rw [(List.mergeSort_perm _ spanLe).mem_iff]
  simp only [ite_true, if_true, List.mem_append]
  exact Or.inl (Or.inr hsp)

/-- C4 fails on the code: on the line `é {"a":5}` (a two-byte character before
the JSON region) the detector emits the key span `[4,7)`; the characters at
positions 4..7 of the line are `a":` and not the matched text `"a"`, and the
run `apply_highlights` styles as json-key is `a":`, not `"a"` — span offsets
are byte offsets, re-interpreted as character offsets by the Span Engine. -/
theorem C4_counterexample :
    highlight_line (HEURISTIC_RULES (fun _ => []) (fun _ => []) (fun _ => []) (fun _ => [])
        (fun _ => []) (fun _ => []) (fun _ => [])) (("é \x7b\"a\":5\x7d").toList)
        Option.none false true =
      [⟨4, 7, HighlightStyle.jsonKey, 50⟩, ⟨8, 9, HighlightStyle.jsonNumber, 50⟩] ∧
    ((("é \x7b\"a\":5\x7d").toList).take 7).drop 4 = ['a', '"', ':'] ∧
    (['a', '"', ':'] : List Char) ≠ ['"', 'a', '"'] ∧
    apply_highlights (("é \x7b\"a\":5\x7d").toList)
        [⟨4, 7, HighlightStyle.jsonKey, 50⟩, ⟨8, 9, HighlightStyle.jsonNumber, 50⟩] =
      some [((("é \x7b").toList) ++ ['"'], HighlightStyle.none),
        (['a', '"', ':'], HighlightStyle.jsonKey),
        (['5'], HighlightStyle.none), (['\x7d'], HighlightStyle.jsonNumber)] := by
  refine ⟨?_, rfl, by decide, by rfl⟩
  have h1 : highlight_line (HEURISTIC_RULES (fun _ => []) (fun _ => []) (fun _ => [])
      (fun _ => []) (fun _ => []) (fun _ => []) (fun _ => []))
      (("é \x7b\"a\":5\x7d").toList) Option.none false true =
      ([⟨4, 7, HighlightStyle.jsonKey, 50⟩,
        ⟨8, 9, HighlightStyle.jsonNumber, 50⟩] : List Span).mergeSort spanLe := rfl
  rw [h1]
  simp [List.mergeSort, List.splitInTwo, List.splitAt, List.splitAt.go, List.merge, spanLe]
  decide

/-- C4 (amended): every span produced by the embedded-structure detector is a
half-open interval measured in BYTE (not character) offsets: its start is the
byte position of a character index `j`, its width is the byte length of the
literal the detector matched, and the characters from `j` on begin with that
literal. Only when every character of the line is a single byte do byte and
character offsets coincide (the span start then equals `j`). The detector
spans reach `apply_highlights` unchanged through `highlight_line` (which only
reorders). -/
theorem C4_byte_not_char_offsets (text : List Char) (sp : Span)
    (hsp : sp ∈ (highlight_json text).getD []) :
    (∃ pat j, j ≤ text.length ∧ sp.stop = sp.start + byteLen pat ∧
      sp.start = byteLen (text.take j) ∧ (text.drop j).take pat.length = pat ∧
      ((∀ c ∈ text, c.utf8Size = 1) → sp.start = j)) ∧
    ∀ (rules : List HeuristicRule) (cf : Option FilterExpr) (he : Bool),
      sp ∈ highlight_line rules text cf he true := by
  constructor
  · obtain ⟨pat, j, hj, hstop, hstart, hpre⟩ := highlight_json_span_occ hsp
    refine ⟨pat, j, hj, hstop, hstart, ?_, ?_⟩
    · rw [List.isPrefixOf_iff_prefix] at hpre
      exact (List.prefix_iff_eq_take.mp hpre).symm
    · intro hascii
      rw [hstart, byteLen_ascii (fun c hc => hascii c (List.mem_of_mem_take hc))]
      rw [List.length_take]
      omega
  · intro rules cf he
    exact mem_highlight_line_json hsp rules cf he

theorem C4_byte_not_char_offsets_witness :
    (∃ pat j, j ≤ (("\x7b\"a\":5\x7d").toList).length ∧
      (⟨1, 4, HighlightStyle.jsonKey, 50⟩ : Span).stop =
        (⟨1, 4, HighlightStyle.jsonKey, 50⟩ : Span).start + byteLen pat ∧
      (⟨1, 4, HighlightStyle.jsonKey, 50⟩ : Span).start =
        byteLen ((("\x7b\"a\":5\x7d").toList).take j) ∧
      (((("\x7b\"a\":5\x7d").toList).drop j).take pat.length = pat) ∧
      ((∀ c ∈ (("\x7b\"a\":5\x7d").toList), c.utf8Size = 1) →
        (⟨1, 4, HighlightStyle.jsonKey, 50⟩ : Span).start = j)) ∧
    ∀ (rules : List HeuristicRule) (cf : Option FilterExpr) (he : Bool),
      (⟨1, 4, HighlightStyle.jsonKey, 50⟩ : Span) ∈
        highlight_line rules (("\x7b\"a\":5\x7d").toList) cf he true :=
  C4_byte_not_char_offsets (("\x7b\"a\":5\x7d").toList)
    ⟨1, 4, HighlightStyle.jsonKey, 50⟩ (by decide)

end LogViewer
